import Mathlib

/-!
Verification of the orchestration core of the `marketing_agent` repository.

The Python source (`src/marketing_agent.py`) is shallowly embedded below:
strings are lists of characters, the regex-based detectors are written out
as decidable scanners with the same matching semantics, fallible operations
return `Option`/`Except`, and the streaming orchestrator `run_stream` is a
total function from an LLM-response oracle to the list of yielded pairs.

Modelling conventions, stated once here:
* Python `str.lower()` and `re.IGNORECASE` are modelled by ASCII case
  folding (`Char.toLower`).  All patterns, tags and markers of the source
  are ASCII or are matched case-sensitively, so this only diverges from
  CPython on inputs that mix letter case inside non-ASCII words; no theorem
  below depends on such inputs.
* Python `str.strip()` and `\s` are modelled over the ASCII whitespace
  characters (space, tab, newline, carriage return, vertical tab, form
  feed), which is what they mean on ASCII text.
* Exceptions are modelled with `Except`/`Bool` flags; an uncaught exception
  escaping a function is an explicit `error`/`crashed` result.
-/

namespace MarketingAgent

/-- Character strings of the embedded program, as lists of characters. -/
abbrev Str := List Char

/-- Coercion from a Lean string literal to the embedded string type. -/
def litS (s : String) : Str := s.data

/-- ASCII lower-casing of one character (model of `str.lower` /
`re.IGNORECASE` on the ASCII patterns used by the source). -/
def lowerChar (c : Char) : Char := c.toLower

/-- ASCII lower-casing of a string. -/
def lowerStr (s : Str) : Str := s.map lowerChar

/-- Whitespace class of Python's `\s` and `str.strip` on ASCII text. -/
def isWsRe (c : Char) : Bool :=
  c == ' ' || c == '\t' || c == '\n' || c == '\r' || c == '\x0b' || c == '\x0c'

/-- Decides whether `p` is a prefix of `s` (character-for-character). -/
def isPrefL : Str → Str → Bool
  | [], _ => true
  | _ :: _, [] => false
  | a :: as, b :: bs => a == b && isPrefL as bs

/-- Case-insensitive prefix test under ASCII folding. -/
def isPrefCI : Str → Str → Bool
  | [], _ => true
  | _ :: _, [] => false
  | a :: as, b :: bs => lowerChar a == lowerChar b && isPrefCI as bs

/-- Holds `f` at some suffix of `s` (tests every start position, like a
regex scan). -/
def anyPos (f : Str → Bool) : Str → Bool
  | [] => f []
  | c :: rest => f (c :: rest) || anyPos f rest

/-- Substring test: `p` occurs somewhere in `s` (Python `p in s`). -/
def containsSub (p s : Str) : Bool := anyPos (isPrefL p) s

/-- Case-insensitive substring test (Python `p.lower() in s.lower()`). -/
def containsCI (p s : Str) : Bool := containsSub (lowerStr p) (lowerStr s)

/-- Index of the first occurrence of `p` in `s`, if any. -/
def firstOcc (p : Str) : Str → Option Nat
  | [] => if isPrefL p [] then some 0 else none
  | c :: rest =>
    if isPrefL p (c :: rest) then some 0 else (firstOcc p rest).map (· + 1)

/-- Splits `s` around the first occurrence of `p`: the text before it and
the text after it. -/
def splitFirstSub (p s : Str) : Option (Str × Str) :=
  (firstOcc p s).map (fun i => (s.take i, s.drop (i + p.length)))

/-- Scanner of `afterLastSub`, with step fuel.  Each step consumes at
least one character, so fuel `s.length` makes the fuel bound unreachable;
the fuel only makes the recursion structural (and so kernel-reducible). -/
def afterLastGo (p : Str) : Nat → Str → Str
  | _, [] => []
  | 0, s => s
  | fuel + 1, c :: rest =>
    if p ≠ [] && isPrefL p (c :: rest) then
      afterLastGo p fuel (List.drop (p.length - 1) rest)
    else if containsSub p rest then afterLastGo p fuel rest
    else c :: rest

/-- Suffix of `s` after the last occurrence of `p` in the left-to-right
non-overlapping scan; `s` itself when `p` does not occur.  This is the
semantics of Python's `s.split(p)[-1]`. -/
def afterLastSub (p : Str) (s : Str) : Str := afterLastGo p s.length s

/-- One-pass case-insensitive removal scanner, with step fuel (see
`afterLastGo` on the fuel convention). -/
def removeAllCIGo (p : Str) : Nat → Str → Str
  | _, [] => []
  | 0, s => s
  | fuel + 1, c :: rest =>
    if p ≠ [] && isPrefCI p (c :: rest) then
      removeAllCIGo p fuel (List.drop (p.length - 1) rest)
    else c :: removeAllCIGo p fuel rest

/-- Removes every occurrence of `p` from `s` in one left-to-right
non-overlapping pass, matching case-insensitively but keeping the original
characters of the unmatched text (Python
`re.sub(re.escape(p), "", s, flags=re.IGNORECASE)`). -/
def removeAllCI (p : Str) (s : Str) : Str := removeAllCIGo p s.length s

/-- Replacement scanner of `pyReplace`, with step fuel (see `afterLastGo`
on the fuel convention). -/
def pyReplaceGo (pat rep : Str) : Nat → Str → Str
  | _, [] => []
  | 0, s => s
  | fuel + 1, c :: rest =>
    if pat ≠ [] && isPrefL pat (c :: rest) then
      rep ++ pyReplaceGo pat rep fuel (List.drop (pat.length - 1) rest)
    else c :: pyReplaceGo pat rep fuel rest

/-- Replaces every occurrence of `pat` by `rep`, left to right without
overlap (Python `s.replace(pat, rep)` for non-empty `pat`). -/
def pyReplace (pat rep : Str) (s : Str) : Str := pyReplaceGo pat rep s.length s

/-- Python `str.strip()` on ASCII whitespace. -/
def pyStrip (s : Str) : Str :=
  ((s.dropWhile isWsRe).reverse.dropWhile isWsRe).reverse

/-- Decimal digit character. -/
def digitChar (d : Nat) : Char := Char.ofNat (48 + d)

/-- Little-endian decimal digits of `n`, with step fuel (`n` itself is
always enough fuel). -/
def natDigitsRevGo : Nat → Nat → List Nat
  | 0, _ => []
  | fuel + 1, n => if n = 0 then [] else n % 10 :: natDigitsRevGo fuel (n / 10)

/-- Decimal rendering of a natural number. -/
def natToStr (n : Nat) : Str :=
  if n = 0 then ['0'] else ((natDigitsRevGo n n).reverse).map digitChar

/-- Decimal rendering of an integer (Python `str` on `int`). -/
def intToStr (i : Int) : Str :=
  if i < 0 then '-' :: natToStr i.natAbs else natToStr i.toNat

/-- Joins a list of strings with newline separators (`"\n".join`). -/
def joinNl : List Str → Str
  | [] => []
  | [x] => x
  | x :: xs => x ++ '\n' :: joinNl xs

/-! ### Input sanitizer (`sanitize_input`, marketing_agent.py lines 50-81)

The injection regexes of `INJECTION_PATTERNS` are an alternation of simple
token sequences; they are embedded as token lists.  `\s+`/`\s*` followed by
a literal that starts with a non-whitespace character matches greedily with
no backtracking, which is what the scanner below implements.  Optional
groups (`(не\s+)?`, `instructions?:`) are expanded into two alternatives,
which has the same matching semantics. -/

/-- One token of an embedded injection pattern. -/
inductive PTok where
  | lit (w : Str)
  | ws1
  | ws0
  | alts (ws : List Str)
deriving Repr

/-- Matches a token sequence at the head of `s`. -/
def matchToks : List PTok → Str → Bool
  | [], _ => true
  | .lit w :: ts, s => isPrefL w s && matchToks ts (s.drop w.length)
  | .ws1 :: ts, s =>
    match s with
    | c :: rest => isWsRe c && matchToks ts (rest.dropWhile isWsRe)
    | [] => false
  | .ws0 :: ts, s => matchToks ts (s.dropWhile isWsRe)
  | .alts ws :: ts, s =>
    ws.any (fun w => isPrefL w s && matchToks ts (s.drop w.length))

/-- The compiled `INJECTION_PATTERNS` alternation (one entry per regex
branch; lower-case because matching is done on lower-cased text). -/
def injPatterns : List (List PTok) :=
  [ [.lit (litS "ignore"), .ws1, .alts [litS "previous", litS "above", litS "all"],
     .ws1, .alts [litS "instructions", litS "prompts"]],
    [.lit (litS "забудь"), .ws1, .alts [litS "предыдущие", litS "все"],
     .ws1, .alts [litS "инструкции", litS "промпты"]],
    [.lit (litS "игнорируй"), .ws1, .alts [litS "предыдущие", litS "все"],
     .ws1, .alts [litS "инструкции", litS "промпты"]],
    [.lit (litS "ты"), .ws1, .lit (litS "теперь"), .ws1, .lit (litS "не"),
     .ws1, .lit (litS "маркетолог")],
    [.lit (litS "ты"), .ws1, .lit (litS "теперь"), .ws1, .lit (litS "маркетолог")],
    [.lit (litS "new"), .ws1, .lit (litS "instructions:")],
    [.lit (litS "new"), .ws1, .lit (litS "instruction:")],
    [.lit (litS "system"), .ws0, .lit (litS ":")],
    [.lit (litS "<"), .ws0, .lit (litS "system"), .ws0, .lit (litS ">")],
    [.lit (litS "["), .ws0, .lit (litS "system"), .ws0, .lit (litS "]")],
    [.lit (litS "admin"), .ws0, .lit (litS ":")],
    [.lit (litS "override"), .ws1, .alts [litS "instructions", litS "system"]],
    [.lit (litS "disregard"), .ws1, .alts [litS "previous", litS "above"]],
    [.lit (litS "pretend"), .ws1, .lit (litS "you"), .ws1, .lit (litS "are")],
    [.lit (litS "притворись")],
    [.lit (litS "act"), .ws1, .lit (litS "as"), .ws1, .lit (litS "if")],
    [.lit (litS "выполни"), .ws1, .lit (litS "код")],
    [.lit (litS "execute"), .ws1, .lit (litS "code")],
    [.lit (litS "eval"), .ws0, .lit (litS "(")],
    [.lit (litS "exec"), .ws0, .lit (litS "(")] ]

/-- Holds iff `INJECTION_REGEX` finds a match in `s`. -/
def injMatched (s : Str) : Bool :=
  let t := lowerStr s
  injPatterns.any (fun p => anyPos (matchToks p) t)

/-- Text of the injection warning.  The source interpolates the Python
`repr` of the regex group tuples of the first three matches
(`f"Обнаружены подозрительные паттерны: {matches[:3]}"`); the model keeps
the fixed message head and abbreviates the interpolated tail, since no
theorem below depends on this string's content, only on the presence or
absence of the tag-removal warnings next to it. -/
def injWarnApprox : Str :=
  litS "Обнаружены подозрительные паттерны: [...]"

/-- The fixed `dangerous_tags` list of `sanitize_input`. -/
def dangerousTags : List Str :=
  [litS "<system>", litS "</system>", litS "<admin>", litS "</admin>",
   litS "[INST]", litS "[/INST]"]

/-- One step of the tag-removal loop of `sanitize_input`: if the tag occurs
case-insensitively, all its occurrences are removed in one pass and a
warning is appended. -/
def tagStep (acc : Str × List Str) (tag : Str) : Str × List Str :=
  if containsCI tag acc.1 then
    (removeAllCI tag acc.1, acc.2 ++ [litS "Удалён тег: " ++ tag])
  else acc

/-- Embedding of `sanitize_input` (marketing_agent.py lines 50-81):
truncation to `maxLength`, advisory injection detection, one-pass
case-insensitive removal of each dangerous tag, neutralisation of
triple-backtick fences, final strip.  Returns the cleaned text and the
warning list. -/
def sanitizeInput (input : Str) (maxLength : Nat) : Str × List Str :=
  let t := if input.length > maxLength then input.take maxLength else input
  let w1 : List Str :=
    if input.length > maxLength then
      [litS "Текст обрезан до " ++ natToStr maxLength ++ litS " символов"]
    else []
  let w2 : List Str := if injMatched t then [injWarnApprox] else []
  let (t2, w3) := dangerousTags.foldl tagStep (t, [])
  let t3 := pyReplace (litS "```") (litS "'''") t2
  (pyStrip t3, w1 ++ w2 ++ w3)

/-! ### Output safety filter (`check_response_safety`, lines 84-105) -/

/-- Matches `kw` followed by `\s*` and an opening parenthesis at the head
of `s` (the `eval\s*\(` / `exec\s*\(` shapes). -/
def kwParenAt (kw : Str) (s : Str) : Bool :=
  isPrefL kw s && ((s.drop kw.length).dropWhile isWsRe).head? == some '('

/-- After the comma of an `open(..., "w...")` shape: `\s*`, a quote, `w`. -/
def openWriteTail (s : Str) : Bool :=
  match s.dropWhile isWsRe with
  | q :: w :: _ => (q == '\'' || q == '"') && w == 'w'
  | _ => false

/-- Scans the argument region of `open\s*\([^)]*,\s*['"]w`: characters
other than `)` may precede the comma; any comma whose tail matches
completes the pattern. -/
def openWriteScan : Str → Bool
  | [] => false
  | c :: rest =>
    if c == ')' then false
    else (c == ',' && openWriteTail rest) || openWriteScan rest

/-- Matches `open\s*\([^)]*,\s*['"]w` at the head of `s`. -/
def openWriteAt (s : Str) : Bool :=
  isPrefL (litS "open") s &&
    (match (s.drop 4).dropWhile isWsRe with
     | '(' :: rest => openWriteScan rest
     | _ => false)

/-- The `dangerous_patterns` list of `check_response_safety`: a decidable
matcher for each regex, paired with the regex source text used in the
rejection reason. -/
def dangerousMatchers : List ((Str → Bool) × Str) :=
  [ (fun t => containsSub (litS "os.system") t || containsSub (litS "os.popen") t
        || containsSub (litS "os.exec") t, litS "os\\.(system|popen|exec)"),
    (fun t => containsSub (litS "subprocess.") t, litS "subprocess\\."),
    (fun t => anyPos (kwParenAt (litS "eval")) t, litS "eval\\s*\\("),
    (fun t => anyPos (kwParenAt (litS "exec")) t, litS "exec\\s*\\("),
    (fun t => containsSub (litS "__import__") t, litS "__import__"),
    (fun t => anyPos openWriteAt t, litS "open\\s*\\([^)]*,\\s*['\"]w") ]

/-- Embedding of `check_response_safety` (lines 84-105): the first matching
dangerous pattern makes the response unsafe, with the pattern text in the
reason; otherwise the response is safe. -/
def checkResponseSafety (s : Str) : Bool × Str :=
  let t := lowerStr s
  match dangerousMatchers.find? (fun m => m.1 t) with
  | some m => (false, litS "Обнаружен опасный паттерн: " ++ m.2)
  | none => (true, [])

/-- Holds iff some dangerous pattern matches the response. -/
def anyDangerous (s : Str) : Bool :=
  let t := lowerStr s
  dangerousMatchers.any (fun m => m.1 t)

/-! ### JSON values (`json.loads` / `json.dumps`)

The agent parses tool-call payloads with `json.loads` and serialises tool
results with `json.dumps(..., ensure_ascii=False)` (compact for error
objects, `indent=2` for tool results).  JSON values are embedded below;
integer numerals become `num`, non-integer numerals (floats, `NaN`,
`Infinity`) keep their source lexeme in `numRaw` — their floating-point
value is never inspected by the orchestrator, only their (non-container)
type and their serialised text. -/

/-- A Python value produced by `json.loads`. -/
inductive Json where
  | null
  | bool (b : Bool)
  | num (n : Int)
  | numRaw (lex : Str)
  | str (s : Str)
  | arr (xs : List Json)
  | obj (kvs : List (Str × Json))
deriving Repr

/-- Lower-case hexadecimal digit. -/
def hexChar (d : Nat) : Char :=
  if d < 10 then digitChar d else Char.ofNat (87 + d)

/-- Escaping of one character inside a JSON string literal, as
`json.dumps(..., ensure_ascii=False)` prints it. -/
def escChar (c : Char) : Str :=
  if c == '"' then ['\\', '"']
  else if c == '\\' then ['\\', '\\']
  else if c == '\n' then ['\\', 'n']
  else if c == '\t' then ['\\', 't']
  else if c == '\r' then ['\\', 'r']
  else if c == '\x08' then ['\\', 'b']
  else if c == '\x0c' then ['\\', 'f']
  else if c.toNat < 32 then
    ['\\', 'u', '0', '0', hexChar (c.toNat / 16), hexChar (c.toNat % 16)]
  else [c]

/-- A JSON string literal with its quotes. -/
def printJStr (s : Str) : Str :=
  '"' :: (s.map escChar).flatten ++ ['"']

/-- Layout of a `json.dumps` call: the whitespace printed after an opening
bracket, after an item comma, and before a closing bracket, as a function
of nesting depth. -/
structure PrintStyle where
  openWs : Nat → Str
  sepWs : Nat → Str
  closeWs : Nat → Str

/-- Layout of `json.dumps(x, ensure_ascii=False)`: no newlines, items
separated by `", "`, keys by `": "`. -/
def compactStyle : PrintStyle := ⟨fun _ => [], fun _ => [' '], fun _ => []⟩

/-- Layout of `json.dumps(x, ensure_ascii=False, indent=2)`. -/
def indent2Style : PrintStyle :=
  ⟨fun d => '\n' :: List.replicate (2 * (d + 1)) ' ',
   fun d => '\n' :: List.replicate (2 * (d + 1)) ' ',
   fun d => '\n' :: List.replicate (2 * d) ' '⟩

mutual

/-- Serialisation of a JSON value at nesting depth `d` under layout `st`
(the body of `json.dumps` with `ensure_ascii=False`). -/
def printJson (st : PrintStyle) (d : Nat) : Json → Str
  | .null => litS "null"
  | .bool true => litS "true"
  | .bool false => litS "false"
  | .num n => intToStr n
  | .numRaw lex => lex
  | .str s => printJStr s
  | .arr [] => ['[', ']']
  | .arr (x :: xs) =>
    '[' :: st.openWs d ++ printArrItems st d (x :: xs) ++ st.closeWs d ++ [']']
  | .obj [] => ['{', '}']
  | .obj (kv :: kvs) =>
    '{' :: st.openWs d ++ printObjItems st d (kv :: kvs) ++ st.closeWs d ++ ['}']

/-- Serialisation of the comma-separated items of an array. -/
def printArrItems (st : PrintStyle) (d : Nat) : List Json → Str
  | [] => []
  | [x] => printJson st (d + 1) x
  | x :: y :: xs =>
    printJson st (d + 1) x ++ ',' :: st.sepWs d ++ printArrItems st d (y :: xs)

/-- Serialisation of the comma-separated members of an object. -/
def printObjItems (st : PrintStyle) (d : Nat) : List (Str × Json) → Str
  | [] => []
  | [kv] => printJStr kv.1 ++ ':' :: ' ' :: printJson st (d + 1) kv.2
  | kv :: kv2 :: kvs =>
    printJStr kv.1 ++ ':' :: ' ' :: printJson st (d + 1) kv.2 ++
      ',' :: st.sepWs d ++ printObjItems st d (kv2 :: kvs)

end

/-- Compact serialisation, `json.dumps(v, ensure_ascii=False)`. -/
def dumpsCompact (v : Json) : Str := printJson compactStyle 0 v

/-- Indented serialisation, `json.dumps(v, ensure_ascii=False, indent=2)`. -/
def dumpsIndent2 (v : Json) : Str := printJson indent2Style 0 v

/-- JSON whitespace accepted between tokens by `json.loads`. -/
def isJsonWs (c : Char) : Bool :=
  c == ' ' || c == '\t' || c == '\n' || c == '\r'

/-- Skips JSON whitespace. -/
def skipWs (s : Str) : Str := s.dropWhile isJsonWs

/-- Value of a hexadecimal digit. -/
def hexVal (c : Char) : Option Nat :=
  if '0' ≤ c ∧ c ≤ '9' then some (c.toNat - 48)
  else if 'a' ≤ c ∧ c ≤ 'f' then some (c.toNat - 87)
  else if 'A' ≤ c ∧ c ≤ 'F' then some (c.toNat - 55)
  else none

/-- Value of a 4-digit hexadecimal escape. -/
def hex4 (a b c d : Char) : Option Nat := do
  let x ← hexVal a; let y ← hexVal b; let z ← hexVal c; let w ← hexVal d
  pure (((x * 16 + y) * 16 + z) * 16 + w)

/-- Decoded character of a one-letter escape sequence. -/
def escDecode (e : Char) : Option Char :=
  if e == '"' then some '"'
  else if e == '\\' then some '\\'
  else if e == '/' then some '/'
  else if e == 'b' then some '\x08'
  else if e == 'f' then some '\x0c'
  else if e == 'n' then some '\n'
  else if e == 'r' then some '\r'
  else if e == 't' then some '\t'
  else none

/-- Decodes the second half of a `\u` surrogate pair: low-surrogate escape
`(n, rest)` where `n` is the high surrogate's value; the combined
character and the rest. -/
def decodePair (n : Nat) : Str → Option (Char × Str)
  | '\\' :: 'u' :: a2 :: b2 :: c3 :: d3 :: rest4 =>
    match hex4 a2 b2 c3 d3 with
    | none => none
    | some m =>
      if 0xdc00 ≤ m ∧ m ≤ 0xdfff then
        some (Char.ofNat (0x10000 + (n - 0xd800) * 0x400 + (m - 0xdc00)), rest4)
      else none
  | _ => none

/-- Decodes a `\u` escape after its `\u` marker: four hex digits, possibly
followed by a low-surrogate escape. -/
def decodeU : Str → Option (Char × Str)
  | a :: b :: c2 :: d2 :: rest3 =>
    (match hex4 a b c2 d2 with
     | none => none
     | some n =>
       if 0xd800 ≤ n ∧ n ≤ 0xdbff then decodePair n rest3
       else if 0xdc00 ≤ n ∧ n ≤ 0xdfff then none
       else some (Char.ofNat n, rest3))
  | _ => none

/-- Decodes an escape sequence after its backslash. -/
def decodeEsc : Str → Option (Option Char × Str)
  | [] => none
  | e :: rest2 =>
    if e == 'u' then (decodeU rest2).map (fun r => (some r.1, r.2))
    else
      match escDecode e with
      | some d => some (some d, rest2)
      | none => none

/-- Decodes one unit of a JSON string body: `some (none, rest)` at the
closing quote, `some (some c, rest)` for a decoded character, `none` on
ill-formed input.  Surrogate pairs in `\u` escapes are combined; a lone
surrogate is rejected (CPython would produce a lone-surrogate `str`, which
Lean strings cannot hold — no theorem below exercises that corner). -/
def decodeUnit : Str → Option (Option Char × Str)
  | [] => none
  | c :: rest =>
    if c == '"' then some (none, rest)
    else if c == '\\' then decodeEsc rest
    else if c.toNat < 32 then none
    else some (some c, rest)

/-- Decoding loop of a JSON string body (step fuel; each unit consumes at
least one character, so fuel `s.length` is always enough). -/
def parseJStrGo : Nat → Str → Option (Str × Str)
  | 0, _ => none
  | fuel + 1, s =>
    match decodeUnit s with
    | none => none
    | some (none, rest) => some ([], rest)
    | some (some d, rest) => (parseJStrGo fuel rest).map (fun r => (d :: r.1, r.2))

/-- Body of a JSON string literal after its opening quote: the decoded
characters and the rest of the input after the closing quote. -/
def parseJStrBody (s : Str) : Option (Str × Str) := parseJStrGo s.length s

/-- Digit test for JSON numerals. -/
def isDigitC (c : Char) : Bool := '0' ≤ c && c ≤ '9'

/-- Natural number value of a digit string. -/
def natOfDigits (ds : Str) : Nat :=
  ds.foldl (fun a c => a * 10 + (c.toNat - 48)) 0

/-- Lexes the integer part of a JSON numeral (`0` or a nonzero digit
followed by digits): the digits and the rest. -/
def lexIntPart (s : Str) : Option (Str × Str) :=
  match s with
  | [] => none
  | c :: rest =>
    if c == '0' then some (['0'], rest)
    else if isDigitC c then
      some (c :: rest.takeWhile isDigitC, rest.dropWhile isDigitC)
    else none

/-- Splits a leading minus sign. -/
def splitNeg (s : Str) : Str × Str :=
  match s with
  | [] => ([], [])
  | c :: rest => if c == '-' then (['-'], rest) else ([], c :: rest)

/-- Splits a leading plus or minus sign. -/
def splitSign (s : Str) : Str × Str :=
  match s with
  | [] => ([], [])
  | c :: rest =>
    if c == '+' || c == '-' then ([c], rest) else ([], c :: rest)

/-- Lexes an optional fraction part (`.` and digits); a dot with no digit
makes the numeral unusable. -/
def lexFrac (s : Str) : Option (Str × Str) :=
  match s with
  | [] => some ([], [])
  | c :: rest =>
    if c == '.' then
      if rest.takeWhile isDigitC ≠ [] then
        some ('.' :: rest.takeWhile isDigitC, rest.dropWhile isDigitC)
      else none
    else some ([], c :: rest)

/-- Lexes an optional exponent part (`e`/`E`, sign, digits); an exponent
marker with no digit makes the numeral unusable. -/
def lexExp (s : Str) : Option (Str × Str) :=
  match s with
  | [] => some ([], [])
  | c :: rest =>
    if c == 'e' || c == 'E' then
      let (sgn, r2) := splitSign rest
      if r2.takeWhile isDigitC ≠ [] then
        some (c :: sgn ++ r2.takeWhile isDigitC, r2.dropWhile isDigitC)
      else none
    else some ([], c :: rest)

/-- Lexes a JSON numeral at the head of `s`: the lexeme, whether it is an
integer (no fraction, no exponent), and the rest. -/
def lexJsonNum (s : Str) : Option (Str × Bool × Str) := do
  let (neg, s1) := splitNeg s
  let (ip, s2) ← lexIntPart s1
  let (fp, s3) ← lexFrac s2
  let (ep, s4) ← lexExp s3
  pure (neg ++ ip ++ fp ++ ep, fp.isEmpty && ep.isEmpty, s4)

/-- Integer value of an integral JSON lexeme. -/
def intOfLex (lex : Str) : Int :=
  match lex with
  | [] => 0
  | c :: ds =>
    if c == '-' then -(natOfDigits ds : Int) else (natOfDigits (c :: ds) : Int)

/-- Parses a JSON numeral into a value: `num` for integrals, `numRaw` for
the rest. -/
def parseNumFrom (s : Str) : Option (Json × Str) :=
  match lexJsonNum s with
  | some (lex, true, rest) => some (.num (intOfLex lex), rest)
  | some (lex, false, rest) => some (.numRaw lex, rest)
  | none => none

mutual

/-- Recursive-descent parser for one JSON value (the grammar accepted by
`json.loads`, including the CPython extensions `NaN`, `Infinity` and
`-Infinity`).  `fuel` bounds recursion depth; `jsonParse` supplies more
fuel than any input can consume. -/
def parseVal : Nat → Str → Option (Json × Str)
  | 0, _ => none
  | fuel + 1, s =>
    match skipWs s with
    | [] => none
    | c :: rest =>
      if c == '"' then (parseJStrBody rest).map (fun r => (.str r.1, r.2))
      else if isPrefL (litS "true") (c :: rest) then
        some (.bool true, (c :: rest).drop 4)
      else if isPrefL (litS "false") (c :: rest) then
        some (.bool false, (c :: rest).drop 5)
      else if isPrefL (litS "null") (c :: rest) then
        some (.null, (c :: rest).drop 4)
      else if isPrefL (litS "NaN") (c :: rest) then
        some (.numRaw (litS "NaN"), (c :: rest).drop 3)
      else if isPrefL (litS "Infinity") (c :: rest) then
        some (.numRaw (litS "Infinity"), (c :: rest).drop 8)
      else if isPrefL (litS "-Infinity") (c :: rest) then
        some (.numRaw (litS "-Infinity"), (c :: rest).drop 9)
      else if c == '[' then
        match skipWs rest with
        | ']' :: r2 => some (.arr [], r2)
        | _ => (parseArrItems fuel rest).map (fun r => (.arr r.1, r.2))
      else if c == '{' then
        match skipWs rest with
        | '}' :: r2 => some (.obj [], r2)
        | _ => (parseObjItems fuel rest).map (fun r => (.obj r.1, r.2))
      else parseNumFrom (c :: rest)

/-- Parses the non-empty item list of a JSON array, up to and including
the closing bracket. -/
def parseArrItems : Nat → Str → Option (List Json × Str)
  | 0, _ => none
  | fuel + 1, s => do
    let (v, r) ← parseVal fuel s
    match skipWs r with
    | [] => none
    | c :: r2 =>
      if c == ',' then (parseArrItems fuel r2).map (fun t => (v :: t.1, t.2))
      else if c == ']' then some ([v], r2)
      else none

/-- Parses the non-empty member list of a JSON object, up to and including
the closing brace. -/
def parseObjItems : Nat → Str → Option (List (Str × Json) × Str)
  | 0, _ => none
  | fuel + 1, s =>
    match skipWs s with
    | [] => none
    | c :: rest =>
      if c == '"' then do
        let (k, r1) ← parseJStrBody rest
        match skipWs r1 with
        | ':' :: r2 => do
          let (v, r3) ← parseVal fuel r2
          (match skipWs r3 with
           | [] => none
           | c2 :: r4 =>
             if c2 == ',' then
               (parseObjItems fuel r4).map (fun t => ((k, v) :: t.1, t.2))
             else if c2 == '}' then some ([(k, v)], r4)
             else none)
        | _ => none
      else none

end

/-- Embedding of `json.loads`: parse one value, allow surrounding
whitespace, reject trailing data. -/
def jsonParse (s : Str) : Option Json :=
  match parseVal (2 * s.length + 2) s with
  | some (v, rest) => if skipWs rest = [] then some v else none
  | none => none

/-! ### Python operations on parsed JSON values -/

/-- Value of the last binding of `key` (Python dict semantics: a repeated
key keeps its last value). -/
def lookupLast (kvs : List (Str × Json)) (key : Str) : Option Json :=
  (kvs.reverse.find? (fun kv => kv.1 == key)).map (·.2)

/-- Python `key in v` for a string `key` and a `json.loads` value: key
membership on a dict, element equality on a list, substring test on a
string, `TypeError` on the other types. -/
def pyContains (v : Json) (key : Str) : Except Unit Bool :=
  match v with
  | .obj kvs => .ok (kvs.any (fun kv => kv.1 == key))
  | .arr xs => .ok (xs.any (fun x => match x with | .str t => t == key | _ => false))
  | .str t => .ok (containsSub key t)
  | _ => .error ()

/-- Python `v[key]` for a string `key`: dict lookup (`KeyError` when the
key is absent), `TypeError` on every other type. -/
def pyGetItem (v : Json) (key : Str) : Except Unit Json :=
  match v with
  | .obj kvs =>
    match lookupLast kvs key with
    | some x => .ok x
    | none => .error ()
  | _ => .error ()

mutual

/-- Python `repr()` of a `json.loads` value, approximated as documented at
`pyStr`. -/
def pyRepr : Json → Str
  | .str s => '\'' :: s ++ ['\'']
  | .num n => intToStr n
  | .numRaw lex => lex
  | .bool true => litS "True"
  | .bool false => litS "False"
  | .null => litS "None"
  | .arr xs => '[' :: pyReprItems xs ++ [']']
  | .obj kvs => '{' :: pyReprMembers kvs ++ ['}']

/-- Comma-separated `repr` items of a list. -/
def pyReprItems : List Json → Str
  | [] => []
  | [x] => pyRepr x
  | x :: y :: xs => pyRepr x ++ ',' :: ' ' :: pyReprItems (y :: xs)

/-- Comma-separated `repr` members of a dict. -/
def pyReprMembers : List (Str × Json) → Str
  | [] => []
  | [kv] => '\'' :: kv.1 ++ '\'' :: ':' :: ' ' :: pyRepr kv.2
  | kv :: kv2 :: kvs =>
    '\'' :: kv.1 ++ '\'' :: ':' :: ' ' :: pyRepr kv.2 ++
      ',' :: ' ' :: pyReprMembers (kv2 :: kvs)

end

/-- Python `str()` of a `json.loads` value, used only to interpolate a
tool name into a progress line.  Scalars are rendered exactly; for the
container types (which crash the orchestrator one step later) the `repr`
rendering is approximated without `repr`'s quote-escaping rules — no
theorem below depends on the rendering of a container. -/
def pyStr (v : Json) : Str :=
  match v with
  | .str s => s
  | .arr xs => '[' :: pyReprItems xs ++ [']']
  | .obj kvs => '{' :: pyReprMembers kvs ++ ['}']
  | other => pyRepr other

/-! ### Tool-call protocol parser (`_parse_tool_calls`, lines 1133-1154) -/

/-- Opening delimiter of the tool-call wire convention. -/
def toolOpenTag : Str := litS "<tool_call>"

/-- Closing delimiter of the tool-call wire convention. -/
def toolCloseTag : Str := litS "</tool_call>"

/-- Inner texts of the closed delimited blocks of `s`, in order: the
matches of `re.findall(r"<tool_call>\s*(.*?)\s*</tool_call>", s, re.DOTALL)`
up to the flanking whitespace, which the caller strips anyway.  The lazy
group makes each block end at the first closing tag after its opening tag.
`fuel` only bounds the scan (each step consumes both delimiters, so
`length + 1` never runs out). -/
def closedBlocksGo : Nat → Str → List Str
  | 0, _ => []
  | fuel + 1, s =>
    match splitFirstSub toolOpenTag s with
    | none => []
    | some (_, afterOpen) =>
      match splitFirstSub toolCloseTag afterOpen with
      | none => []
      | some (inner, rest) => inner :: closedBlocksGo fuel rest

/-- Closed delimited blocks of `s`. -/
def closedBlocks (s : Str) : List Str := closedBlocksGo (s.length + 1) s

/-- Holds iff every character is `\s` whitespace. -/
def allWs (s : Str) : Bool := s.all isWsRe

/-- The trailing-block group of the fallback regex
`re.findall(r"<tool_call>\s*(\{.*?\})\s*$", s, re.DOTALL)` anchored at a
text `t` that follows `<tool_call>\s*`: the text from the leading brace to
the last closing brace, provided only whitespace follows it. -/
def lastBraceGroup (t : Str) : Option Str :=
  match t with
  | '{' :: _ =>
    match (t.reverse.findIdx? (· == '}')).map (fun k => t.length - 1 - k) with
    | some j => if allWs (t.drop (j + 1)) then some (t.take (j + 1)) else none
    | none => none
  | _ => none

/-- Scans the occurrences of `<tool_call>` left to right for the fallback
pattern; the regex engine advances to the next occurrence when the brace
group fails to match. -/
def fallbackGo : Nat → Str → List Str
  | 0, _ => []
  | fuel + 1, s =>
    match firstOcc toolOpenTag s with
    | none => []
    | some i =>
      let t := (s.drop (i + toolOpenTag.length)).dropWhile isWsRe
      match lastBraceGroup t with
      | some grp => [grp]
      | none => fallbackGo fuel (s.drop (i + 1))

/-- Candidate block texts of `_parse_tool_calls`: the closed blocks, or —
when there is none (a stop sequence truncated the output) — the single
trailing open block, if present. -/
def candidateBlocks (s : Str) : List Str :=
  let closed := closedBlocks s
  if closed.isEmpty then fallbackGo (s.length + 1) s else closed

/-- Key `"name"` of a tool call. -/
def keyName : Str := litS "name"

/-- Key `"arguments"` of a tool call. -/
def keyArgs : Str := litS "arguments"

/-- Per-block loop of `_parse_tool_calls`: a block that is not valid JSON
raises `json.JSONDecodeError`, which is caught (`continue`); a valid block
is kept when the membership tests `"name" in tc and "arguments" in tc`
both succeed.  Those tests are outside the caught exception class: on a
non-container value they raise an uncaught `TypeError`, modelled as
`Except.error`. -/
def parseToolCallsGo : List Str → Except Unit (List Json)
  | [] => .ok []
  | b :: rest =>
    match jsonParse (pyStrip b) with
    | none => parseToolCallsGo rest
    | some v =>
      match pyContains v keyName with
      | .error _ => .error ()
      | .ok bn =>
        if bn then
          match pyContains v keyArgs with
          | .error _ => .error ()
          | .ok ba =>
            if ba then (parseToolCallsGo rest).map (v :: ·) else parseToolCallsGo rest
        else parseToolCallsGo rest

/-- Embedding of `_parse_tool_calls` (lines 1133-1154): extract candidate
blocks, parse each as JSON, keep those with both a `name` and an
`arguments` key, in emission order.  An `error` result is an uncaught
`TypeError` escaping the method. -/
def parseToolCalls (s : Str) : Except Unit (List Json) :=
  parseToolCallsGo (candidateBlocks s)

/-! ### Tool registry and dispatch (`_execute_tool`, lines 1156-1165)

A tool implementation is a function from the `arguments` value to a result
or to the message of a raised exception: Python's keyword-argument binding
(including `TypeError` for a missing required argument or a non-mapping
`arguments` value) happens inside the call expression, which the source
wraps in `try/except Exception`, so it is absorbed into the `error` case. -/

/-- One tool of the registry. -/
abbrev ToolImpl := Json → Except Str Json

/-- The `TOOL_FUNCTIONS` mapping, abstracted over its entries. -/
abbrev ToolRegistry := Str → Option ToolImpl

/-- Embedding of `_execute_tool` (lines 1156-1165).  The name-membership
test `tool_name not in TOOL_FUNCTIONS` is outside the `try`: an unhashable
name (a list or dict) raises an uncaught `TypeError` there, modelled as
`Except.error`; any other non-string name is simply not found.  Unknown
names and tool exceptions are serialised error objects; a successful
result is serialised with `indent=2`. -/
def executeTool (reg : ToolRegistry) (name : Json) (args : Json) :
    Except Unit Str :=
  match name with
  | .arr _ => .error ()
  | .obj _ => .error ()
  | _ =>
    match (match name with | .str s => reg s | _ => none) with
    | none =>
      .ok (dumpsCompact (.obj [(litS "error",
        .str (litS "Инструмент '" ++ pyStr name ++ litS "' не найден"))]))
    | some f =>
      match f args with
      | .ok v => .ok (dumpsIndent2 v)
      | .error e => .ok (dumpsCompact (.obj [(litS "error", .str e)]))

/-! ### LLM client (`_call_llm`, lines 1082-1131) -/

/-- Outcome of one HTTP attempt of `_call_llm`, abstracting the network:
a successful completion with its content, HTTP 429, any other HTTP error,
a request timeout, or any other exception (connection failure, malformed
response body, …). -/
inductive LLMOutcome where
  | ok (content : Str)
  | rateLimited
  | httpOther
  | timedOut
  | excOther
deriving Repr, DecidableEq

/-- Retry loop of `_call_llm` from attempt number `attempt` with `fuel`
attempts left: returns the result and the list of backoff waits (in
seconds) performed, in order.  HTTP 429 waits `2 ^ attempt + 1` seconds
and retries; a timeout waits 5 seconds and retries; any other error
returns `None` at once; running out of attempts returns `None`. -/
def callLLMGo (oracle : Nat → LLMOutcome) : Nat → Nat → Option Str × List Nat
  | 0, _ => (none, [])
  | fuel + 1, attempt =>
    match oracle attempt with
    | .ok c => (some c, [])
    | .rateLimited =>
      let r := callLLMGo oracle fuel (attempt + 1)
      (r.1, (2 ^ attempt + 1) :: r.2)
    | .timedOut =>
      let r := callLLMGo oracle fuel (attempt + 1)
      (r.1, 5 :: r.2)
    | .httpOther => (none, [])
    | .excOther => (none, [])

/-- Embedding of `_call_llm` (lines 1082-1131) over an attempt-outcome
oracle, with `max_retries` attempts. -/
def callLLM (oracle : Nat → LLMOutcome) (maxRetries : Nat) :
    Option Str × List Nat :=
  callLLMGo oracle maxRetries 0

/-! ### The `estimate_budget` tool (lines 819-919)

The Python multipliers are floats; they are modelled as exact rationals
with `int()` as truncation toward zero.  On the default path of Scenario C
(`goal="leads"`, no `target_leads`) every multiplier is `1.0` and the
arithmetic is exact in both models. -/

/-- Thousands-separated decimal rendering, Python `f"{n:,}"`. -/
def commasRev : Nat → Str → Str
  | _, [] => []
  | i, c :: rest =>
    (if i % 3 == 0 && i ≠ 0 then [','] else []) ++ c :: commasRev (i + 1) rest

/-- Decimal rendering of an integer with thousands separators. -/
def withCommas (n : Int) : Str :=
  (if n < 0 then ['-'] else []) ++ (commasRev 0 (natToStr n.natAbs).reverse).reverse

/-- The `industry_cac` table: `(key, min, avg, max)` in source order.  The
lookup tests `key in industry_lower`, so the upper-case `"IT"` key can
never match a lower-cased industry string. -/
def industryCac : List (Str × Int × Int × Int) :=
  [ (litS "IT", 10000, 15000, 25000),
    (litS "ритейл", 300, 500, 1000),
    (litS "финансы", 15000, 25000, 50000),
    (litS "образование", 2000, 5000, 10000),
    (litS "edtech", 2000, 5000, 10000),
    (litS "saas", 8000, 15000, 30000),
    (litS "b2b", 10000, 20000, 40000),
    (litS "e-commerce", 200, 400, 800),
    (litS "красота", 500, 800, 1500),
    (litS "барбершоп", 300, 500, 1000),
    (litS "салон", 500, 800, 1500),
    (litS "медицина", 2000, 3000, 5000),
    (litS "стоматология", 3000, 4000, 6000),
    (litS "фитнес", 1000, 1500, 2500),
    (litS "ресторан", 200, 300, 500),
    (litS "кафе", 100, 150, 300),
    (litS "автосервис", 1500, 2000, 3000),
    (litS "недвижимость", 30000, 50000, 100000),
    (litS "цветы", 300, 400, 600),
    (litS "доставка", 150, 200, 350),
    (litS "клининг", 800, 1000, 1500),
    (litS "юридические", 5000, 8000, 15000),
    (litS "туризм", 1000, 2000, 4000) ]

/-- The `goal_multipliers` table.  The float multipliers `0.5`, `1.0`,
`1.3`, `0.4` are exact tenths; they are stored scaled by 10 so that
`int(x * m)` can be computed exactly as a truncated integer division. -/
def goalMultipliers : List (Str × Int) :=
  [ (litS "awareness", 5), (litS "leads", 10),
    (litS "sales", 13), (litS "retention", 4) ]

/-- The `size_multipliers` table, scaled by 10 like `goalMultipliers`. -/
def sizeMultipliers : List (Str × Int) :=
  [ (litS "стартап", 5), (litS "малый", 7),
    (litS "средний", 10), (litS "крупный", 20) ]

/-- The `base_budgets` table used when no target lead count is given:
`(key, min, optimal, max)`. -/
def baseBudgets : List (Str × Int × Int × Int) :=
  [ (litS "стартап", 50000, 150000, 300000),
    (litS "малый", 100000, 300000, 500000),
    (litS "средний", 300000, 700000, 1500000),
    (litS "крупный", 1000000, 3000000, 10000000) ]

/-- The `budget_recommendations` mapping of an `estimate_budget` result. -/
structure BudgetRecs where
  minimum : Int
  optimal : Int
  maximum : Int
deriving Repr, DecidableEq

/-- The result mapping of `estimate_budget`. -/
structure EstimateBudgetResult where
  goal : Str
  industry : Str
  company_size : Str
  target_leads : Option Int
  estimated_cac : Int
  budget_recommendations : BudgetRecs
  recommended_period : Str
  insight : Str
deriving Repr, DecidableEq

/-- Embedding of `estimate_budget` (lines 819-919).  The CAC row is the
first table key that is a substring of the lower-cased industry; a missing
`target_leads` (or zero, which is falsy in Python) selects the
company-size base budgets scaled by the goal multiplier.  `int(x * m)` on
the float multipliers is modelled as exact truncated division of the
tenth-scaled integers (`Int.tdiv` truncates toward zero like Python
`int()`); on every path exercised below the products are whole numbers in
both models. -/
def estimateBudget (goal industry : Str) (target_leads : Option Int)
    (company_size : Str) : EstimateBudgetResult :=
  let industryLower := lowerStr industry
  let cacData : Int × Int × Int :=
    (((industryCac.find? (fun e => containsSub e.1 industryLower)).map
      (fun e => e.2)).getD (3000, 7000, 15000))
  let goalMult :=
    (((goalMultipliers.find? (fun e => e.1 == lowerStr goal)).map
      (fun e => e.2)).getD 10)
  let sizeMult :=
    (((sizeMultipliers.find? (fun e => e.1 == lowerStr company_size)).map
      (fun e => e.2)).getD 10)
  let useLeads : Bool := match target_leads with
    | some n => n != 0
    | none => false
  let tl := target_leads.getD 0
  let leadsTriple : Int × Int × Int :=
    (Int.tdiv (tl * cacData.1 * goalMult * sizeMult) 100,
     Int.tdiv (tl * cacData.2.1 * goalMult * sizeMult) 100,
     Int.tdiv (tl * cacData.2.2 * goalMult * sizeMult) 100)
  let baseT : Int × Int × Int :=
    (((baseBudgets.find? (fun e => e.1 == lowerStr company_size)).map
      (fun e => e.2)).getD (300000, 700000, 1500000))
  let baseTriple : Int × Int × Int :=
    (Int.tdiv (baseT.1 * goalMult) 10,
     Int.tdiv (baseT.2.1 * goalMult) 10,
     Int.tdiv (baseT.2.2 * goalMult) 10)
  let triple := if useLeads then leadsTriple else baseTriple
  let period :=
    if triple.1 < 100000 then litS "1 месяц"
    else if triple.1 < 300000 then litS "1-2 месяца"
    else if triple.1 < 700000 then litS "квартал (3 месяца)"
    else litS "квартал или полугодие"
  { goal := goal
    industry := industry
    company_size := company_size
    target_leads := target_leads
    estimated_cac := cacData.2.1
    budget_recommendations :=
      ⟨triple.1, triple.2.1, triple.2.2⟩
    recommended_period := period
    insight :=
      litS "Для цели '" ++ goal ++ litS "' в отрасли '" ++ industry ++
      litS "' рекомендуемый бюджет: " ++ withCommas triple.2.1 ++
      litS "₽. Минимальный эффективный бюджет: " ++ withCommas triple.1 ++
      litS "₽" }

/-! ### The orchestrator (`run_stream`, lines 1167-1299)

`run_stream` is a generator; its embedding returns the full list of
yielded `(progress, final_result)` pairs, the number of LLM calls made,
and whether an uncaught exception escaped the generator (`crashed`).  The
LLM is abstracted as an oracle from the zero-based call number to the
completion result (`none` for a failed call).  The conversation transcript
is consumed only by the LLM, which the oracle abstracts, so its contents
are not tracked; the `print` logging has no observable effect and is
dropped. -/

/-- The final-answer marker. -/
def finalMarker : Str := litS "ФИНАЛЬНЫЙ ОТВЕТ:"

/-- The final answer extracted from a response: the text after the last
occurrence of the marker, stripped
(`response.split("ФИНАЛЬНЫЙ ОТВЕТ:")[-1].strip()`). -/
def extractFinal (r : Str) : Str := pyStrip (afterLastSub finalMarker r)

/-- Result of one `run_stream` execution. -/
structure RunResult where
  yields : List (Str × Str)
  llmCalls : Nat
  crashed : Bool
deriving Repr, DecidableEq

/-- Progress line opening iteration `i`. -/
def iterLine (i : Nat) : Str :=
  litS "🔄 Итерация " ++ natToStr i ++ litS ": Думаю над задачей..."

/-- Progress line of a failed LLM call. -/
def llmFailLine : Str := litS "❌ Ошибка: не удалось получить ответ от LLM"

/-- Final result of a failed LLM call. -/
def llmFailMsg : Str := litS "Ошибка: не удалось получить ответ от LLM"

/-- Progress line of a safety rejection. -/
def unsafeLine : Str := litS "🚨 Небезопасный ответ заблокирован"

/-- Final result of a safety rejection. -/
def unsafeMsg : Str := litS "Ответ заблокирован по соображениям безопасности."

/-- Progress line of a found final answer. -/
def finalLine : Str := litS "✅ Получен финальный ответ!"

/-- Progress line of the no-tool-calls nudge. -/
def noToolsLine : Str := litS "⚠️ Нет вызовов инструментов, прошу уточнить..."

/-- Progress line of iteration-budget exhaustion. -/
def limitLine : Str := litS "❌ Достигнут лимит итераций"

/-- Final result of iteration-budget exhaustion. -/
def limitMsg : Str :=
  litS "Достигнут лимит итераций. Пожалуйста, попробуйте уточнить запрос."

/-- Progress line of the empty-query validation failure. -/
def emptyQueryLine : Str := litS "❌ Пустой или некорректный запрос"

/-- Final result of the empty-query validation failure. -/
def emptyQueryMsg : Str :=
  litS "Пожалуйста, введите корректный запрос о маркетинге."

/-- The tool-dispatch loop of one iteration (lines 1255-1282): for each
parsed tool call, read its `name` and `arguments` (an uncaught exception
here crashes the run before its progress line), yield the tool progress
line, execute the tool and re-parse the serialised result (an exception
here crashes the run after the line was yielded).  Returns the yields of
the loop, the grown progress log, and the crash flag. -/
def toolLoop (reg : ToolRegistry) (log : List Str) :
    List Json → List (Str × Str) × List Str × Bool
  | [] => ([], log, false)
  | tc :: rest =>
    match pyGetItem tc keyName, pyGetItem tc keyArgs with
    | .ok nm, .ok args =>
      let log2 := log ++ [litS "🔧 Вызываю: " ++ pyStr nm]
      (match executeTool reg nm args with
       | .error _ => ([(joinNl log2, [])], log2, true)
       | .ok res =>
         match jsonParse res with
         | none => ([(joinNl log2, [])], log2, true)
         | some _ =>
           let r := toolLoop reg log2 rest
           ((joinNl log2, []) :: r.1, r.2.1, r.2.2))
    | _, _ => ([], log, true)

/-- The iteration loop of `run_stream` (lines 1201-1299), with `fuel`
iterations left, `iter` iterations done, `calls` LLM calls made and the
accumulated progress log. -/
def runLoop (reg : ToolRegistry) (oracle : Nat → Option Str) :
    Nat → Nat → Nat → List Str → RunResult
  | 0, _, calls, log =>
    ⟨[(joinNl (log ++ [limitLine]), limitMsg)], calls, false⟩
  | fuel + 1, iter, calls, log =>
    let i := iter + 1
    let log1 := log ++ [iterLine i]
    let y0 : Str × Str := (joinNl log1, [])
    match oracle calls with
    | none => ⟨[y0, (joinNl (log1 ++ [llmFailLine]), llmFailMsg)], calls + 1, false⟩
    | some r =>
      if r.isEmpty then
        ⟨[y0, (joinNl (log1 ++ [llmFailLine]), llmFailMsg)], calls + 1, false⟩
      else if !(checkResponseSafety r).1 then
        ⟨[y0, (joinNl (log1 ++ [unsafeLine]), unsafeMsg)], calls + 1, false⟩
      else if containsSub finalMarker r then
        ⟨[y0, (joinNl (log1 ++ [finalLine]), extractFinal r)], calls + 1, false⟩
      else
        match parseToolCalls r with
        | .error _ => ⟨[y0], calls + 1, true⟩
        | .ok [] =>
          let log2 := log1 ++ [noToolsLine]
          let rest := runLoop reg oracle fuel i (calls + 1) log2
          ⟨y0 :: (joinNl log2, []) :: rest.yields, rest.llmCalls, rest.crashed⟩
        | .ok (tc :: tcs) =>
          let t := toolLoop reg log1 (tc :: tcs)
          if t.2.2 then ⟨y0 :: t.1, calls + 1, true⟩
          else
            let rest := runLoop reg oracle fuel i (calls + 1) t.2.1
            ⟨y0 :: t.1 ++ rest.yields, rest.llmCalls, rest.crashed⟩

/-- Embedding of `run_stream` (lines 1167-1299): sanitize the query, fail
fast on an empty result, then run up to `maxIterations` iterations. -/
def runStream (reg : ToolRegistry) (oracle : Nat → Option Str)
    (maxIterations : Nat) (query : Str) : RunResult :=
  let sq := (sanitizeInput query 5000).1
  if (pyStrip sq).isEmpty then ⟨[(emptyQueryLine, emptyQueryMsg)], 0, false⟩
  else runLoop reg oracle maxIterations 0 0 []

/-! ### Well-formedness and statement vocabulary -/

/-- Shape of an optional minus sign. -/
def negOK (neg : Str) : Prop := neg = [] ∨ neg = ['-']

/-- Shape of a JSON integer part: `0`, or digits without a leading zero. -/
def ipOK (ip : Str) : Prop :=
  ip = ['0'] ∨ (ip ≠ [] ∧ ip.all isDigitC = true ∧ ip.head? ≠ some '0')

/-- Shape of an optional JSON fraction part. -/
def fpOK (fp : Str) : Prop :=
  fp = [] ∨ ∃ ds, fp = '.' :: ds ∧ ds ≠ [] ∧ ds.all isDigitC = true

/-- Shape of an optional JSON exponent part. -/
def epOK (ep : Str) : Prop :=
  ep = [] ∨ ∃ e sgn ds, ep = e :: sgn ++ ds ∧ (e = 'e' ∨ e = 'E') ∧
    (sgn = [] ∨ sgn = ['+'] ∨ sgn = ['-']) ∧ ds ≠ [] ∧ ds.all isDigitC = true

/-- A `numRaw` lexeme that `json.dumps` would print and `json.loads` reads
back to the same lexeme: a non-integral JSON numeral, or a CPython special
float literal. -/
def numShapeOK (lex : Str) : Prop :=
  lex = litS "NaN" ∨ lex = litS "Infinity" ∨ lex = litS "-Infinity" ∨
  ∃ neg ip fp ep, lex = neg ++ ip ++ fp ++ ep ∧ negOK neg ∧ ipOK ip ∧
    fpOK fp ∧ epOK ep ∧ (fp ≠ [] ∨ ep ≠ [])

mutual

/-- Well-formedness of an embedded JSON value: every `numRaw` lexeme is a
canonical numeral.  Values produced without `numRaw` are well-formed by
construction. -/
def wfJson : Json → Prop
  | .numRaw lex => numShapeOK lex
  | .arr xs => wfJsonItems xs
  | .obj kvs => wfJsonMembers kvs
  | _ => True

/-- Well-formedness of a list of values. -/
def wfJsonItems : List Json → Prop
  | [] => True
  | x :: xs => wfJson x ∧ wfJsonItems xs

/-- Well-formedness of object members. -/
def wfJsonMembers : List (Str × Json) → Prop
  | [] => True
  | kv :: kvs => wfJson kv.2 ∧ wfJsonMembers kvs

end

/-- A registry whose tools, like the eight calculators of
`TOOL_FUNCTIONS`, return well-formed JSON-serialisable mappings on
success. -/
def wfRegistry (reg : ToolRegistry) : Prop :=
  ∀ nm f, reg nm = some f → ∀ args v, f args = .ok v →
    (∃ kvs, v = .obj kvs) ∧ wfJson v

mutual

/-- Parser fuel consumed by one value (a bound used by the round-trip
lemmas; `jsonParse` always supplies at least this much). -/
def needFuel : Json → Nat
  | .arr xs => needFuelItems xs + 1
  | .obj kvs => needFuelMembers kvs + 1
  | _ => 1

def needFuelItems : List Json → Nat
  | [] => 0
  | x :: xs => needFuel x + needFuelItems xs + 1

def needFuelMembers : List (Str × Json) → Nat
  | [] => 0
  | kv :: kvs => needFuel kv.2 + needFuelMembers kvs + 1

end

/-- Text that may legally follow a printed JSON value inside a document:
nothing, whitespace, or a closing/separating token. -/
def restOkB : Str → Bool
  | [] => true
  | c :: _ => isJsonWs c || c == ',' || c == '}' || c == ']'

/-- A tool-call name value on which Python's dict-membership test does not
raise (everything except a list or dict). -/
def hashableName : Json → Bool
  | .arr _ => false
  | .obj _ => false
  | _ => true

/-- A parsed tool call whose dispatch completes without an uncaught
exception: a dict carrying both keys, with a hashable name. -/
def benignToolCall : Json → Bool
  | .obj kvs =>
    (match lookupLast kvs keyName with
     | some nm => hashableName nm
     | none => false) && (lookupLast kvs keyArgs).isSome
  | _ => false

/-- An LLM response on which the iteration neither terminates nor
dispatches tools: non-empty, safe, no final marker, no parsed tool calls
(the model is nudged and the loop continues). -/
def nudgeResp : Option Str → Bool
  | none => false
  | some r =>
    !r.isEmpty && (checkResponseSafety r).1 && !(containsSub finalMarker r) &&
      (match parseToolCalls r with | .ok [] => true | _ => false)

/-- An LLM response on which the iteration does not terminate the run: as
`nudgeResp`, but parsed tool calls are allowed when each is benign. -/
def continueResp : Option Str → Bool
  | none => false
  | some r =>
    !r.isEmpty && (checkResponseSafety r).1 && !(containsSub finalMarker r) &&
      (match parseToolCalls r with
       | .ok l => l.all benignToolCall
       | .error _ => false)

/-- Outcomes on which `_call_llm` retries. -/
def retryable : LLMOutcome → Bool
  | .rateLimited => true
  | .timedOut => true
  | _ => false

/-- The backoff wait the code performs after attempt `i` (429 waits
`2 ^ i + 1` seconds, a timeout waits 5 seconds). -/
def waitOf (o : Nat → LLMOutcome) (i : Nat) : Nat :=
  match o i with
  | .rateLimited => 2 ^ i + 1
  | .timedOut => 5
  | _ => 0

/-- Case-sensitive one-pass removal scanner (the lower-cased shadow of
`removeAllCIGo`, used by the sanitizer lemmas). -/
def removeAllGo (p : Str) : Nat → Str → Str
  | _, [] => []
  | 0, s => s
  | fuel + 1, c :: rest =>
    if p ≠ [] && isPrefL p (c :: rest) then
      removeAllGo p fuel (List.drop (p.length - 1) rest)
    else c :: removeAllGo p fuel rest

/-- Case-sensitive one-pass removal of every occurrence of `p`. -/
def removeAll (p : Str) (s : Str) : Str := removeAllGo p s.length s

/-- Two patterns admit no compatible overlapping placement: wherever an
occurrence of `q` would intersect an occurrence of `p`, the characters of
the two patterns disagree.  Decidable by enumeration of offsets; it holds
for every ordered pair of distinct sanitizer tags. -/
def noOverlap (p q : Str) : Bool :=
  ((List.range p.length).all (fun j =>
    !((List.range (min (p.length - j) q.length)).all
      (fun k => p.get? (j + k) == q.get? k)))) &&
  ((List.range q.length).all (fun j =>
    j == 0 ||
    !((List.range (min (q.length - j) p.length)).all
      (fun k => q.get? (j + k) == p.get? k))))

/-- The keep test of the `_parse_tool_calls` block loop
(`"name" in tc and "arguments" in tc`), with its uncaught `TypeError`
branches mapped to `none` (they cannot occur on a run that returns
normally): `some v` exactly when both membership tests return `True`. -/
def keepToolCall (v : Json) : Option Json :=
  match pyContains v keyName with
  | .ok true =>
    match pyContains v keyArgs with
    | .ok true => some v
    | _ => none
  | _ => none

/-! ## Lemmas

The development below proves the claims of the specification against the
embedding above.  It starts with generic string lemmas, then the
`json.dumps`/`json.loads` round trip, the tool-call parser, the LLM
client, the sanitizer, and finally the orchestrator loop. -/

theorem skipWs_append_ws (a b : Str) (h : a.all isJsonWs = true) :
    skipWs (a ++ b) = skipWs b := by
  induction a with
  | nil => rfl
  | cons c t ih =>
    rw [List.all_cons, Bool.and_eq_true] at h
    show List.dropWhile isJsonWs (c :: (t ++ b)) = _
    rw [List.dropWhile_cons_of_pos h.1]
    exact ih h.2

theorem skipWs_cons_not_ws (c : Char) (t : Str) (h : isJsonWs c = false) :
    skipWs (c :: t) = c :: t := by
  show List.dropWhile isJsonWs (c :: t) = c :: t
  rw [List.dropWhile_cons_of_neg (by simp [h])]

theorem takeWhile_all_append (p : Char → Bool) (l r : Str) (h : l.all p = true) :
    (l ++ r).takeWhile p = l ++ r.takeWhile p := by
  induction l with
  | nil => rfl
  | cons c t ih =>
    rw [List.all_cons, Bool.and_eq_true] at h
    simp only [List.cons_append, List.takeWhile_cons_of_pos h.1, ih h.2]

theorem dropWhile_all_append (p : Char → Bool) (l r : Str) (h : l.all p = true) :
    (l ++ r).dropWhile p = r.dropWhile p := by
  induction l with
  | nil => rfl
  | cons c t ih =>
    rw [List.all_cons, Bool.and_eq_true] at h
    simp only [List.cons_append, List.dropWhile_cons_of_pos h.1, ih h.2]

theorem natDigitsRevGo_eq (fuel n : Nat) (h : n ≤ fuel) :
    natDigitsRevGo fuel n = Nat.digits 10 n := by
  induction fuel generalizing n with
  | zero => interval_cases n; simp [natDigitsRevGo]
  | succ f ih =>
    by_cases h0 : n = 0
    · subst h0; simp [natDigitsRevGo]
    · rw [natDigitsRevGo, if_neg h0,
        Nat.digits_def' (by norm_num : 1 < 10) (Nat.pos_of_ne_zero h0)]
      congr 1
      exact ih _ (by omega : n / 10 ≤ f)

theorem foldl_digitChar (l : List Nat) (hl : ∀ d ∈ l, d < 10) (a : Nat) :
    List.foldl (fun a c => a * 10 + (c.toNat - 48)) a (l.map digitChar) =
      List.foldl (fun a d => a * 10 + d) a l := by
  induction l generalizing a with
  | nil => rfl
  | cons x t ih =>
    have hx : x < 10 := hl x (by simp)
    have : (digitChar x).toNat - 48 = x := by
      have h10 : ∀ d, d < 10 → (digitChar d).toNat - 48 = d := by decide
      exact h10 x hx
    simp only [List.map_cons, List.foldl_cons, this]
    exact ih (fun d hd => hl d (by simp [hd])) _

theorem foldl_rev_ofDigits (L : List Nat) (a : Nat) :
    List.foldl (fun a d => a * 10 + d) a L.reverse =
      a * 10 ^ L.length + Nat.ofDigits 10 L := by
  induction L generalizing a with
  | nil => simp [Nat.ofDigits]
  | cons x t ih =>
    simp only [List.reverse_cons, List.foldl_append, List.foldl_cons,
      List.foldl_nil, ih, Nat.ofDigits_cons, List.length_cons]
    ring

theorem natOfDigits_natToStr (n : Nat) : natOfDigits (natToStr n) = n := by
  by_cases h0 : n = 0
  · subst h0; rfl
  · unfold natToStr natOfDigits
    rw [if_neg h0, natDigitsRevGo_eq n n le_rfl,
      foldl_digitChar ((Nat.digits 10 n).reverse)
        (fun d hd => Nat.digits_lt_base (by norm_num) (List.mem_reverse.mp hd)),
      foldl_rev_ofDigits]
    simp [Nat.ofDigits_digits]

theorem natToStr_all_digits (n : Nat) : (natToStr n).all isDigitC = true := by
  by_cases h0 : n = 0
  · subst h0; rfl
  · unfold natToStr
    rw [if_neg h0, natDigitsRevGo_eq n n le_rfl]
    rw [List.all_eq_true]
    intro c hc
    rw [List.mem_map] at hc
    obtain ⟨d, hd, rfl⟩ := hc
    rw [List.mem_reverse] at hd
    have hlt : d < 10 := Nat.digits_lt_base (by norm_num) hd
    exact (by decide : ∀ d, d < 10 → isDigitC (digitChar d) = true) d hlt

theorem natToStr_ne_nil (n : Nat) : natToStr n ≠ [] := by
  by_cases h0 : n = 0
  · subst h0; simp [natToStr]
  · unfold natToStr
    rw [if_neg h0, natDigitsRevGo_eq n n le_rfl]
    simp [Nat.digits_ne_nil_iff_ne_zero.mpr h0]

theorem natToStr_head_ne_zero (n : Nat) (h0 : n ≠ 0) :
    (natToStr n).head? ≠ some '0' := by
  unfold natToStr
  rw [if_neg h0, natDigitsRevGo_eq n n le_rfl]
  have hne : Nat.digits 10 n ≠ [] := Nat.digits_ne_nil_iff_ne_zero.mpr h0
  rw [List.head?_map, List.head?_reverse]
  rw [List.getLast?_eq_getLast _ hne]
  have hlast := Nat.getLast_digit_ne_zero 10 h0
  have hlt : (Nat.digits 10 n).getLast hne < 10 :=
    Nat.digits_lt_base (by norm_num) (List.getLast_mem hne)
  intro hc
  simp only [Option.map_some', Option.some.injEq] at hc
  exact (by decide : ∀ d, d < 10 → d ≠ 0 → digitChar d ≠ '0') _ hlt hlast hc


theorem restOk_head_facts (c : Char) (t : Str) (h : restOkB (c :: t) = true) :
    isDigitC c = false ∧ (c == '.') = false ∧ (c == 'e' || c == 'E') = false ∧
    (c == '-') = false ∧ (c == '+') = false := by
  simp only [restOkB, isJsonWs, Bool.or_eq_true, beq_iff_eq] at h
  have h7 : c = ' ' ∨ c = '\t' ∨ c = '\n' ∨ c = '\r' ∨ c = ',' ∨ c = '}' ∨ c = ']' := by
    tauto
  rcases h7 with h | h | h | h | h | h | h <;> subst h <;> decide

theorem restOk_digits (rest : Str) (h : restOkB rest = true) :
    rest.takeWhile isDigitC = [] ∧ rest.dropWhile isDigitC = rest := by
  cases rest with
  | nil => exact ⟨rfl, rfl⟩
  | cons c t =>
    have hf := restOk_head_facts c t h
    exact ⟨List.takeWhile_cons_of_neg (by simp [hf.1]),
           List.dropWhile_cons_of_neg (by simp [hf.1])⟩

theorem lexFrac_restOk (rest : Str) (h : restOkB rest = true) :
    lexFrac rest = some ([], rest) := by
  cases rest with
  | nil => rfl
  | cons c t =>
    have hf := restOk_head_facts c t h
    simp [lexFrac, hf.2.1]

theorem lexExp_restOk (rest : Str) (h : restOkB rest = true) :
    lexExp rest = some ([], rest) := by
  cases rest with
  | nil => rfl
  | cons c t =>
    have hf := restOk_head_facts c t h
    simp [lexExp, hf.2.2.1]

theorem isDigitC_ne_minus (c : Char) (h : isDigitC c = true) : (c == '-') = false := by
  by_cases hc : c = '-'
  · subst hc; simp [isDigitC] at h
  · simp [hc]

theorem natToStr_decomp (n : Nat) :
    ∃ c t, natToStr n = c :: t ∧ isDigitC c = true ∧ t.all isDigitC = true ∧
      (n ≠ 0 → c ≠ '0') := by
  have hall := natToStr_all_digits n
  have hne := natToStr_ne_nil n
  match h : natToStr n with
  | [] => exact absurd h hne
  | c :: t =>
    rw [h] at hall
    rw [List.all_cons, Bool.and_eq_true] at hall
    refine ⟨c, t, rfl, hall.1, hall.2, fun h0 hc => ?_⟩
    have hh := natToStr_head_ne_zero n h0
    rw [h, hc] at hh
    simp at hh

theorem lexIntPart_print (n : Nat) (rest : Str) (h : restOkB rest = true) :
    lexIntPart (natToStr n ++ rest) = some (natToStr n, rest) := by
  obtain ⟨hto, hdo⟩ := restOk_digits rest h
  by_cases h0 : n = 0
  · subst h0
    rw [show natToStr 0 = ['0'] from rfl]
    simp [lexIntPart]
  · obtain ⟨c, t, heq, hc, ht, hz⟩ := natToStr_decomp n
    rw [heq]
    show lexIntPart (c :: (t ++ rest)) = _
    rw [lexIntPart, if_neg (by simp [beq_iff_eq]; exact (hz h0)), if_pos (by simp [hc])]
    rw [takeWhile_all_append _ _ _ ht, dropWhile_all_append _ _ _ ht, hto, hdo]
    simp

theorem lexJsonNum_print_int (n : Int) (rest : Str) (h : restOkB rest = true) :
    lexJsonNum (intToStr n ++ rest) = some (intToStr n, true, rest) := by
  by_cases hn : n < 0
  · have hi : intToStr n = '-' :: natToStr n.natAbs := by simp [intToStr, hn]
    rw [hi]
    show lexJsonNum ('-' :: (natToStr n.natAbs ++ rest)) = _
    rw [lexJsonNum]
    simp only [splitNeg, if_pos (by rfl : ('-' == '-') = true)]
    rw [lexIntPart_print _ _ h]
    simp only [Option.bind_eq_bind, Option.some_bind]
    rw [lexFrac_restOk _ h]
    simp only [Option.some_bind]
    rw [lexExp_restOk _ h]
    simp
  · have hi : intToStr n = natToStr n.toNat := by simp [intToStr, hn]
    obtain ⟨c, t, heq, hc, ht, hz⟩ := natToStr_decomp n.toNat
    rw [hi, heq]
    show lexJsonNum (c :: (t ++ rest)) = _
    rw [lexJsonNum]
    simp only [splitNeg, if_neg (by simp [isDigitC_ne_minus c hc] : ¬((c == '-') = true))]
    rw [show (c :: (t ++ rest)) = (c :: t) ++ rest from rfl, ← heq, lexIntPart_print _ _ h]
    simp only [Option.bind_eq_bind, Option.some_bind]
    rw [lexFrac_restOk _ h]
    simp only [Option.some_bind]
    rw [lexExp_restOk _ h]
    simp

theorem intOfLex_intToStr (n : Int) : intOfLex (intToStr n) = n := by
  by_cases hn : n < 0
  · have hi : intToStr n = '-' :: natToStr n.natAbs := by simp [intToStr, hn]
    rw [hi, intOfLex, if_pos (by rfl)]
    rw [natOfDigits_natToStr]
    omega
  · have hi : intToStr n = natToStr n.toNat := by simp [intToStr, hn]
    obtain ⟨c, t, heq, hc, ht, hz⟩ := natToStr_decomp n.toNat
    rw [hi, heq, intOfLex, if_neg (by simp [isDigitC_ne_minus c hc]), ← heq,
      natOfDigits_natToStr]
    omega

theorem parseNumFrom_print_int (n : Int) (rest : Str) (h : restOkB rest = true) :
    parseNumFrom (intToStr n ++ rest) = some (Json.num n, rest) := by
  rw [parseNumFrom, lexJsonNum_print_int n rest h]
  simp [intOfLex_intToStr]


theorem hexVal_hexChar (d : Nat) (h : d < 16) : hexVal (hexChar d) = some d :=
  (by decide : ∀ d, d < 16 → hexVal (hexChar d) = some d) d h

theorem decodeU_u00 (c : Char) (rest : Str) (h8 : c.toNat < 32) :
    decodeU ('0' :: '0' :: hexChar (c.toNat / 16) :: hexChar (c.toNat % 16) :: rest) =
      some (c, rest) := by
  have hhi := hexVal_hexChar (c.toNat / 16) (by omega)
  have hlo := hexVal_hexChar (c.toNat % 16) (by omega)
  have hhex : hex4 '0' '0' (hexChar (c.toNat / 16)) (hexChar (c.toNat % 16)) =
      some c.toNat := by
    rw [hex4]
    simp only [show hexVal '0' = some 0 from rfl, hhi, hlo, Option.bind_eq_bind,
      Option.some_bind]
    congr 1
    omega
  simp only [decodeU, hhex]
  rw [if_neg (by omega), if_neg (by omega), Char.ofNat_toNat]

theorem decodeUnit_escChar (c : Char) (rest : Str) :
    decodeUnit (escChar c ++ rest) = some (some c, rest) := by
  by_cases h1 : c = '"'
  · subst h1; rfl
  · by_cases h2 : c = '\\'
    · subst h2; rfl
    · by_cases h3 : c = '\n'
      · subst h3; rfl
      · by_cases h4 : c = '\t'
        · subst h4; rfl
        · by_cases h5 : c = '\r'
          · subst h5; rfl
          · by_cases h6 : c = '\x08'
            · subst h6; rfl
            · by_cases h7 : c = '\x0c'
              · subst h7; rfl
              · by_cases h8 : c.toNat < 32
                · have hesc : escChar c =
                      ['\\', 'u', '0', '0', hexChar (c.toNat / 16), hexChar (c.toNat % 16)] := by
                    simp only [escChar]
                    rw [if_neg (by simp [h1]), if_neg (by simp [h2]), if_neg (by simp [h3]),
                      if_neg (by simp [h4]), if_neg (by simp [h5]), if_neg (by simp [h6]),
                      if_neg (by simp [h7]), if_pos h8]
                  rw [hesc]
                  show decodeUnit ('\\' :: 'u' :: '0' :: '0' :: hexChar (c.toNat / 16) ::
                    hexChar (c.toNat % 16) :: rest) = _
                  show decodeEsc ('u' :: '0' :: '0' :: hexChar (c.toNat / 16) ::
                    hexChar (c.toNat % 16) :: rest) = _
                  rw [decodeEsc, if_pos (by decide)]
                  rw [decodeU_u00 c rest h8]
                  rfl
                · have hesc : escChar c = [c] := by
                    simp only [escChar]
                    rw [if_neg (by simp [h1]), if_neg (by simp [h2]), if_neg (by simp [h3]),
                      if_neg (by simp [h4]), if_neg (by simp [h5]), if_neg (by simp [h6]),
                      if_neg (by simp [h7]), if_neg h8]
                  rw [hesc]
                  show decodeUnit (c :: rest) = _
                  rw [decodeUnit, if_neg (by simp [h1]), if_neg (by simp [h2]), if_neg h8]

theorem escChar_len_pos (c : Char) : 1 ≤ (escChar c).length := by
  simp only [escChar]
  repeat' split
  all_goals simp

theorem escFlatten_len (s : Str) : s.length ≤ ((s.map escChar).flatten).length := by
  induction s with
  | nil => simp
  | cons c t ih =>
    simp only [List.map_cons, List.flatten_cons, List.length_append, List.length_cons]
    have := escChar_len_pos c
    omega

theorem parseJStrGo_print (s : Str) : ∀ (fuel : Nat) (rest : Str), s.length + 1 ≤ fuel →
    parseJStrGo fuel ((s.map escChar).flatten ++ '"' :: rest) = some (s, rest) := by
  induction s with
  | nil =>
    intro fuel rest h
    cases fuel with
    | zero => omega
    | succ f =>
      show parseJStrGo (f + 1) ('"' :: rest) = _
      rw [parseJStrGo]
      rfl
  | cons c t ih =>
    intro fuel rest h
    cases fuel with
    | zero => simp at h
    | succ f =>
      simp only [List.map_cons, List.flatten_cons, List.append_assoc]
      simp only [parseJStrGo, decodeUnit_escChar c _]
      rw [ih f rest (by simp only [List.length_cons] at h; omega)]
      rfl

theorem parseJStrBody_print (s rest : Str) :
    parseJStrBody ((s.map escChar).flatten ++ '"' :: rest) = some (s, rest) := by
  rw [parseJStrBody]
  apply parseJStrGo_print
  have h1 := escFlatten_len s
  simp only [List.length_append, List.length_cons]
  omega


theorem isDigitC_ne (c x : Char) (h : isDigitC c = true) (hx : isDigitC x = false) :
    (c == x) = false := by
  by_cases hc : c = x
  · subst hc; rw [h] at hx; cases hx
  · simp [hc]

theorem isJsonWs_false_of_digit (c : Char) (h : isDigitC c = true) : isJsonWs c = false := by
  rcases Bool.eq_false_or_eq_true (isJsonWs c) with ht | hf
  · exfalso
    simp only [isJsonWs, Bool.or_eq_true, beq_iff_eq] at ht
    rcases ht with ((h1 | h1) | h1) | h1 <;> (subst h1; exact absurd h (by decide))
  · exact hf

theorem isPrefL_append_self (p r : Str) : isPrefL p (p ++ r) = true := by
  induction p with
  | nil => rfl
  | cons c t ih => simp [isPrefL, ih]

theorem isPrefL_head_false (c p0 : Char) (ps t : Str) (h : (c == p0) = false) :
    isPrefL (p0 :: ps) (c :: t) = false := by
  have : (p0 == c) = false := by
    rw [Bool.eq_false_iff] at h ⊢
    intro hc; rw [beq_iff_eq] at hc; subst hc; simp at h
  simp [isPrefL, this]

theorem digits_head_facts (c : Char) (h : isDigitC c = true) :
    isJsonWs c = false ∧ (c == '"') = false ∧ (c == 't') = false ∧ (c == 'f') = false ∧
    (c == 'n') = false ∧ (c == 'N') = false ∧ (c == 'I') = false ∧ (c == '-') = false ∧
    (c == '[') = false ∧ (c == '{') = false ∧ (c == ']') = false := by
  exact ⟨isJsonWs_false_of_digit c h, isDigitC_ne c _ h (by decide), isDigitC_ne c _ h (by decide),
    isDigitC_ne c _ h (by decide), isDigitC_ne c _ h (by decide), isDigitC_ne c _ h (by decide),
    isDigitC_ne c _ h (by decide), isDigitC_ne c _ h (by decide), isDigitC_ne c _ h (by decide),
    isDigitC_ne c _ h (by decide), isDigitC_ne c _ h (by decide)⟩

theorem needFuel_pos (j : Json) : 1 ≤ needFuel j := by
  cases j <;> simp [needFuel]



theorem epRest_digits (ep rest : Str) (hep : epOK ep) (h : restOkB rest = true) :
    (ep ++ rest).takeWhile isDigitC = [] ∧
      (ep ++ rest).dropWhile isDigitC = ep ++ rest := by
  rcases hep with rfl | ⟨e, sgn, ds, rfl, he, hsgn, hds, hall⟩
  · simpa using restOk_digits rest h
  · have hde : isDigitC e = false := by rcases he with rfl | rfl <;> decide
    rw [List.cons_append]
    exact ⟨List.takeWhile_cons_of_neg (by simp [hde]),
           List.dropWhile_cons_of_neg (by simp [hde])⟩

theorem fpTail_digits (fp ep rest : Str) (hfp : fpOK fp) (hep : epOK ep)
    (h : restOkB rest = true) :
    (fp ++ (ep ++ rest)).takeWhile isDigitC = [] ∧
      (fp ++ (ep ++ rest)).dropWhile isDigitC = fp ++ (ep ++ rest) := by
  rcases hfp with rfl | ⟨ds, rfl, hds, hall⟩
  · simpa using epRest_digits ep rest hep h
  · rw [List.cons_append]
    exact ⟨List.takeWhile_cons_of_neg (by decide),
           List.dropWhile_cons_of_neg (by decide)⟩

theorem lexFrac_print (fp ep rest : Str) (hfp : fpOK fp) (hep : epOK ep)
    (h : restOkB rest = true) :
    lexFrac (fp ++ (ep ++ rest)) = some (fp, ep ++ rest) := by
  obtain ⟨hto, hdo⟩ := epRest_digits ep rest hep h
  rcases hfp with rfl | ⟨ds, rfl, hds, hall⟩
  · rcases hep with rfl | ⟨e, sgn, ds, rfl, he, hsgn, hds, hall⟩
    · simpa using lexFrac_restOk rest h
    · have hed : (e == '.') = false := by rcases he with rfl | rfl <;> decide
      rw [List.nil_append, List.append_assoc, List.cons_append]
      simp [lexFrac, hed]
  · have h1 : List.takeWhile isDigitC (ds ++ (ep ++ rest)) = ds := by
      rw [takeWhile_all_append _ _ _ hall]
      rw [show List.takeWhile isDigitC (ep ++ rest) = [] from hto]
      simp
    have h2 : List.dropWhile isDigitC (ds ++ (ep ++ rest)) = ep ++ rest := by
      rw [dropWhile_all_append _ _ _ hall]
      exact hdo
    rw [List.cons_append]
    simp [lexFrac, h1, h2, hds]

theorem lexExp_print (ep rest : Str) (hep : epOK ep) (h : restOkB rest = true) :
    lexExp (ep ++ rest) = some (ep, rest) := by
  obtain ⟨hto, hdo⟩ := restOk_digits rest h
  rcases hep with rfl | ⟨e, sgn, ds, rfl, he, hsgn, hds, hall⟩
  · simpa using lexExp_restOk rest h
  · have hee : (e == 'e' || e == 'E') = true := by rcases he with rfl | rfl <;> decide
    have hsp : splitSign (sgn ++ (ds ++ rest)) = (sgn, ds ++ rest) := by
      rcases hsgn with rfl | rfl | rfl
      · cases ds with
        | nil => exact absurd rfl hds
        | cons d t =>
          have hd : isDigitC d = true := by
            have := hall; rw [List.all_cons, Bool.and_eq_true] at this; exact this.1
          have hp1 : (d == '+') = false := isDigitC_ne d '+' hd (by decide)
          have hp2 : (d == '-') = false := isDigitC_ne d '-' hd (by decide)
          simp [splitSign, hp1, hp2]
      · simp [splitSign]
      · simp [splitSign]
    have h1 : List.takeWhile isDigitC (ds ++ rest) = ds := by
      rw [takeWhile_all_append _ _ _ hall, hto]
      simp
    have h2 : List.dropWhile isDigitC (ds ++ rest) = rest := by
      rw [dropWhile_all_append _ _ _ hall, hdo]
    simp only [List.cons_append, List.append_assoc]
    simp only [lexExp, if_pos hee]
    rw [hsp]
    simp only []
    rw [h1, h2, if_pos hds]
    simp

theorem ipOK_decomp (ip : Str) (hip : ipOK ip) :
    ∃ c t, ip = c :: t ∧ isDigitC c = true := by
  rcases hip with rfl | ⟨hne, hall, hhd⟩
  · exact ⟨'0', [], rfl, by decide⟩
  · cases ip with
    | nil => exact absurd rfl hne
    | cons c t =>
      rw [List.all_cons, Bool.and_eq_true] at hall
      exact ⟨c, t, rfl, hall.1⟩

theorem lexIntPart_print_ip (ip tail : Str) (hip : ipOK ip)
    (hto : tail.takeWhile isDigitC = []) (hdo : tail.dropWhile isDigitC = tail) :
    lexIntPart (ip ++ tail) = some (ip, tail) := by
  rcases hip with rfl | ⟨hne, hall, hhd⟩
  · simp [lexIntPart]
  · cases ip with
    | nil => exact absurd rfl hne
    | cons c t =>
      rw [List.all_cons, Bool.and_eq_true] at hall
      have hc0 : (c == '0') = false := by
        rw [Bool.eq_false_iff]
        intro hc; rw [beq_iff_eq] at hc; subst hc
        exact hhd rfl
      rw [List.cons_append]
      simp only [lexIntPart, hc0, Bool.false_eq_true, if_false]
      rw [if_pos hall.1, takeWhile_all_append _ _ _ hall.2,
        dropWhile_all_append _ _ _ hall.2, hto, hdo]
      simp

theorem lexJsonNum_print_shape (neg ip fp ep rest : Str) (hneg : negOK neg)
    (hip : ipOK ip) (hfp : fpOK fp) (hep : epOK ep) (hne : fp ≠ [] ∨ ep ≠ [])
    (h : restOkB rest = true) :
    lexJsonNum ((neg ++ ip ++ fp ++ ep) ++ rest) =
      some (neg ++ ip ++ fp ++ ep, false, rest) := by
  obtain ⟨hto, hdo⟩ := fpTail_digits fp ep rest hfp hep h
  have hbool : (fp.isEmpty && ep.isEmpty) = false := by
    rcases hne with hx | hx
    · cases fp with
      | nil => exact absurd rfl hx
      | cons a b => rfl
    · cases ep with
      | nil => exact absurd rfl hx
      | cons a b => simp [List.isEmpty_cons]
  rcases hneg with rfl | rfl
  · obtain ⟨c, t, hipeq, hc⟩ := ipOK_decomp ip hip
    have hint2 : lexIntPart (c :: (t ++ (fp ++ (ep ++ rest)))) =
        some (c :: t, fp ++ (ep ++ rest)) := by
      have := lexIntPart_print_ip (c :: t) (fp ++ (ep ++ rest)) (hipeq ▸ hip) hto hdo
      simpa [List.cons_append] using this
    rw [hipeq]
    simp only [List.nil_append, List.append_assoc, List.cons_append]
    rw [lexJsonNum]
    simp only [splitNeg, if_neg (by simp [isDigitC_ne_minus c hc] :
      ¬((c == '-') = true))]
    rw [hint2]
    simp only [Option.bind_eq_bind, Option.some_bind]
    rw [lexFrac_print fp ep rest hfp hep h]
    simp only [Option.some_bind]
    rw [lexExp_print ep rest hep h]
    simp [hbool]
  · have hint : lexIntPart (ip ++ (fp ++ (ep ++ rest))) =
        some (ip, fp ++ (ep ++ rest)) :=
      lexIntPart_print_ip ip _ hip hto hdo
    simp only [List.append_assoc, List.cons_append, List.nil_append]
    rw [lexJsonNum]
    simp only [splitNeg, if_pos (by rfl : ('-' == '-') = true)]
    rw [hint]
    simp only [Option.bind_eq_bind, Option.some_bind]
    rw [lexFrac_print fp ep rest hfp hep h]
    simp only [Option.some_bind]
    rw [lexExp_print ep rest hep h]
    simp [hbool]

theorem parseNumFrom_print_shape (neg ip fp ep rest : Str) (hneg : negOK neg)
    (hip : ipOK ip) (hfp : fpOK fp) (hep : epOK ep) (hne : fp ≠ [] ∨ ep ≠ [])
    (h : restOkB rest = true) :
    parseNumFrom ((neg ++ ip ++ fp ++ ep) ++ rest) =
      some (Json.numRaw (neg ++ ip ++ fp ++ ep), rest) := by
  rw [parseNumFrom, lexJsonNum_print_shape neg ip fp ep rest hneg hip hfp hep hne h]


/-- Whitespace-only layout: every `json.dumps` layout we model prints only
JSON whitespace between tokens. -/
def styleWsOK (st : PrintStyle) : Prop :=
  ∀ d, (st.openWs d).all isJsonWs = true ∧ (st.sepWs d).all isJsonWs = true ∧
    (st.closeWs d).all isJsonWs = true

theorem printJson_head (st : PrintStyle) (d : Nat) (j : Json) (hj : wfJson j) :
    ∃ c t, printJson st d j = c :: t ∧ isJsonWs c = false ∧ (c == ']') = false ∧
      (c == '}') = false := by
  cases j with
  | null => exact ⟨'n', litS "ull", rfl, by decide, by decide, by decide⟩
  | bool b =>
    cases b with
    | true => exact ⟨'t', litS "rue", rfl, by decide, by decide, by decide⟩
    | false => exact ⟨'f', litS "alse", rfl, by decide, by decide, by decide⟩
  | num n =>
    by_cases hn : n < 0
    · exact ⟨'-', natToStr n.natAbs, by simp [printJson, intToStr, hn],
        by decide, by decide, by decide⟩
    · obtain ⟨c, t, hdec, hc, ht, hz⟩ := natToStr_decomp n.toNat
      exact ⟨c, t, by simp [printJson, intToStr, hn, hdec],
        isJsonWs_false_of_digit c hc, isDigitC_ne c _ hc (by decide),
        isDigitC_ne c _ hc (by decide)⟩
  | numRaw lex =>
    rcases hj with h | h | h | ⟨neg, ip, fp, ep, rfl, hneg, hip, hfp, hep, hne⟩
    · exact ⟨'N', litS "aN", by simp [printJson, h]; rfl, by decide, by decide, by decide⟩
    · exact ⟨'I', litS "nfinity", by simp [printJson, h]; rfl, by decide, by decide, by decide⟩
    · exact ⟨'-', litS "Infinity", by simp [printJson, h]; rfl, by decide, by decide, by decide⟩
    · rcases hneg with rfl | rfl
      · obtain ⟨c, t, hdec, hc⟩ := ipOK_decomp ip hip
        exact ⟨c, t ++ fp ++ ep, by simp [printJson, hdec],
          isJsonWs_false_of_digit c hc, isDigitC_ne c _ hc (by decide),
          isDigitC_ne c _ hc (by decide)⟩
      · exact ⟨'-', ip ++ fp ++ ep, by simp [printJson], by decide, by decide, by decide⟩
  | str s => exact ⟨'"', (s.map escChar).flatten ++ ['"'], rfl, by decide, by decide, by decide⟩
  | arr xs =>
    cases xs with
    | nil => exact ⟨'[', [']'], rfl, by decide, by decide, by decide⟩
    | cons x xs =>
      exact ⟨'[', st.openWs d ++ printArrItems st d (x :: xs) ++ st.closeWs d ++ [']'],
        by simp [printJson], by decide, by decide, by decide⟩
  | obj kvs =>
    cases kvs with
    | nil => exact ⟨'{', ['}'], rfl, by decide, by decide, by decide⟩
    | cons kv kvs =>
      exact ⟨'{', st.openWs d ++ printObjItems st d (kv :: kvs) ++ st.closeWs d ++ ['}'],
        by simp [printJson], by decide, by decide, by decide⟩

theorem printArrItems_head (st : PrintStyle) (d : Nat) (x : Json) (xs : List Json)
    (hx : wfJson x) :
    ∃ c t, printArrItems st d (x :: xs) = c :: t ∧ isJsonWs c = false ∧
      (c == ']') = false ∧ (c == '}') = false := by
  obtain ⟨c, t, hh, h1, h2, h3⟩ := printJson_head st (d + 1) x hx
  cases xs with
  | nil => exact ⟨c, t, by simp [printArrItems, hh], h1, h2, h3⟩
  | cons y ys =>
    exact ⟨c, t ++ ',' :: st.sepWs d ++ printArrItems st d (y :: ys),
      by simp [printArrItems, hh], h1, h2, h3⟩



theorem restOkB_ws_append (ws s : Str) (h : ws.all isJsonWs = true)
    (hs : restOkB s = true) : restOkB (ws ++ s) = true := by
  cases ws with
  | nil => exact hs
  | cons w t =>
    rw [List.all_cons, Bool.and_eq_true] at h
    simp [restOkB, h.1]





theorem litS_true : litS "true" = ['t','r','u','e'] := rfl

theorem litS_false : litS "false" = ['f','a','l','s','e'] := rfl

theorem litS_null : litS "null" = ['n','u','l','l'] := rfl

theorem litS_nan : litS "NaN" = ['N','a','N'] := rfl

theorem litS_inf : litS "Infinity" = ['I','n','f','i','n','i','t','y'] := rfl

theorem litS_neginf : litS "-Infinity" = ['-','I','n','f','i','n','i','t','y'] := rfl

theorem printObjItems_head (st : PrintStyle) (d : Nat) (kv : Str × Json)
    (kvs : List (Str × Json)) :
    ∃ t, printObjItems st d (kv :: kvs) = '"' :: t := by
  cases kvs with
  | nil =>
    exact ⟨(kv.1.map escChar).flatten ++ ['"'] ++
      (':' :: ' ' :: printJson st (d + 1) kv.2), by simp [printObjItems, printJStr]⟩
  | cons kv2 kvs2 =>
    exact ⟨(kv.1.map escChar).flatten ++ ['"'] ++ (':' :: ' ' :: printJson st (d + 1) kv.2)
      ++ ',' :: st.sepWs d ++ printObjItems st d (kv2 :: kvs2),
      by simp [printObjItems, printJStr]⟩

/-- One unfolding step of `parseVal` on input whose leading whitespace and
head character are known. -/
theorem parseVal_cons (f : Nat) (pre : Str) (c : Char) (t : Str)
    (hpre : pre.all isJsonWs = true) (hw : isJsonWs c = false) :
    parseVal (f + 1) (pre ++ c :: t) =
      (if c == '"' then (parseJStrBody t).map (fun r => (Json.str r.1, r.2))
      else if isPrefL (litS "true") (c :: t) then some (.bool true, (c :: t).drop 4)
      else if isPrefL (litS "false") (c :: t) then some (.bool false, (c :: t).drop 5)
      else if isPrefL (litS "null") (c :: t) then some (.null, (c :: t).drop 4)
      else if isPrefL (litS "NaN") (c :: t) then
        some (.numRaw (litS "NaN"), (c :: t).drop 3)
      else if isPrefL (litS "Infinity") (c :: t) then
        some (.numRaw (litS "Infinity"), (c :: t).drop 8)
      else if isPrefL (litS "-Infinity") (c :: t) then
        some (.numRaw (litS "-Infinity"), (c :: t).drop 9)
      else if c == '[' then
        match skipWs t with
        | ']' :: r2 => some (.arr [], r2)
        | _ => (parseArrItems f t).map (fun r => (.arr r.1, r.2))
      else if c == '{' then
        match skipWs t with
        | '}' :: r2 => some (.obj [], r2)
        | _ => (parseObjItems f t).map (fun r => (.obj r.1, r.2))
      else parseNumFrom (c :: t)) := by
  simp only [parseVal]
  rw [skipWs_append_ws _ _ hpre, skipWs_cons_not_ws _ _ hw]
  try rfl

theorem isPrefL_lit_false_digit (c : Char) (t : Str) (hd : isDigitC c = true) :
    isPrefL (litS "true") (c :: t) = false ∧ isPrefL (litS "false") (c :: t) = false ∧
    isPrefL (litS "null") (c :: t) = false ∧ isPrefL (litS "NaN") (c :: t) = false ∧
    isPrefL (litS "Infinity") (c :: t) = false ∧
    isPrefL (litS "-Infinity") (c :: t) = false := by
  refine ⟨?_, ?_, ?_, ?_, ?_, ?_⟩
  · rw [litS_true]
    exact isPrefL_head_false c 't' _ _ (isDigitC_ne c 't' hd (by decide))
  · rw [litS_false]
    exact isPrefL_head_false c 'f' _ _ (isDigitC_ne c 'f' hd (by decide))
  · rw [litS_null]
    exact isPrefL_head_false c 'n' _ _ (isDigitC_ne c 'n' hd (by decide))
  · rw [litS_nan]
    exact isPrefL_head_false c 'N' _ _ (isDigitC_ne c 'N' hd (by decide))
  · rw [litS_inf]
    exact isPrefL_head_false c 'I' _ _ (isDigitC_ne c 'I' hd (by decide))
  · rw [litS_neginf]
    exact isPrefL_head_false c '-' _ _ (isDigitC_ne c '-' hd (by decide))


set_option maxHeartbeats 1000000

theorem beq_symm_false (a b : Char) (h : (a == b) = false) : (b == a) = false := by
  rw [Bool.eq_false_iff] at h ⊢
  intro hc; rw [beq_iff_eq] at hc; subst hc
  simp at h

/-- One unfolding step of `parseObjItems` on input whose leading whitespace
and head character are known. -/
theorem parseObjItems_cons (f : Nat) (pre : Str) (c : Char) (t : Str)
    (hpre : pre.all isJsonWs = true) (hw : isJsonWs c = false) :
    parseObjItems (f + 1) (pre ++ c :: t) =
      (if c == '"' then do
        let (k, r1) ← parseJStrBody t
        match skipWs r1 with
        | ':' :: r2 => do
          let (v, r3) ← parseVal f r2
          (match skipWs r3 with
           | [] => none
           | c2 :: r4 =>
             if c2 == ',' then
               (parseObjItems f r4).map (fun t2 => ((k, v) :: t2.1, t2.2))
             else if c2 == '}' then some ([(k, v)], r4)
             else none)
        | _ => none
      else none) := by
  simp only [parseObjItems]
  rw [skipWs_append_ws _ _ hpre, skipWs_cons_not_ws _ _ hw]
  try rfl

/-- Round-trip of the printer and parser: under any whitespace-only layout,
a printed well-formed value parses back to itself, leaving exactly the
trailing input, provided the parser is given at least `needFuel` fuel. -/
theorem printParse (st : PrintStyle) (hst : styleWsOK st) : ∀ (fuel : Nat),
    (∀ j, wfJson j → needFuel j ≤ fuel → ∀ d pre rest, pre.all isJsonWs = true →
      restOkB rest = true →
      parseVal fuel (pre ++ (printJson st d j ++ rest)) = some (j, rest)) ∧
    (∀ x xs, wfJsonItems (x :: xs) → needFuelItems (x :: xs) ≤ fuel →
      ∀ d pre rest, pre.all isJsonWs = true →
      parseArrItems fuel (pre ++ (printArrItems st d (x :: xs) ++
        (st.closeWs d ++ (']' :: rest)))) = some (x :: xs, rest)) ∧
    (∀ kv kvs, wfJsonMembers (kv :: kvs) → needFuelMembers (kv :: kvs) ≤ fuel →
      ∀ d pre rest, pre.all isJsonWs = true →
      parseObjItems fuel (pre ++ (printObjItems st d (kv :: kvs) ++
        (st.closeWs d ++ ('}' :: rest)))) = some (kv :: kvs, rest)) := by
  intro fuel
  induction fuel with
  | zero =>
    refine ⟨?_, ?_, ?_⟩
    · intro j hj hfj d pre rest hpre hrest
      exact absurd hfj (by have := needFuel_pos j; omega)
    · intro x xs hxs hf d pre rest hpre
      simp only [needFuelItems] at hf
      exact absurd hf (by omega)
    · intro kv kvs hkvs hf d pre rest hpre
      simp only [needFuelMembers] at hf
      exact absurd hf (by omega)
  | succ f ih =>
    obtain ⟨ih1, ih2, ih3⟩ := ih
    refine ⟨?_, ?_, ?_⟩
    · -- parseVal step
      intro j hj hfj d pre rest hpre hrest
      cases j with
      | null =>
        simp only [printJson]
        rw [litS_null,
          show (['n','u','l','l'] : Str) ++ rest = 'n' :: ('u' :: 'l' :: 'l' :: rest) from rfl,
          parseVal_cons f pre 'n' _ hpre (by decide)]
        simp +decide [isPrefL, litS]
      | bool b =>
        cases b with
        | true =>
          simp only [printJson]
          rw [litS_true,
            show (['t','r','u','e'] : Str) ++ rest = 't' :: ('r' :: 'u' :: 'e' :: rest) from rfl,
            parseVal_cons f pre 't' _ hpre (by decide)]
          simp +decide [isPrefL, litS]
        | false =>
          simp only [printJson]
          rw [litS_false,
            show (['f','a','l','s','e'] : Str) ++ rest =
              'f' :: ('a' :: 'l' :: 's' :: 'e' :: rest) from rfl,
            parseVal_cons f pre 'f' _ hpre (by decide)]
          simp +decide [isPrefL, litS]
      | num n =>
        by_cases hn : n < 0
        · have hi : intToStr n = '-' :: natToStr n.natAbs := by simp [intToStr, hn]
          obtain ⟨dg, tl, hdec, hd, htl, hz⟩ := natToStr_decomp n.natAbs
          have hI : ('I' == dg) = false :=
            beq_symm_false dg 'I' (isDigitC_ne dg 'I' hd (by decide))
          simp only [printJson]
          rw [hi, hdec,
            show ('-' :: dg :: tl) ++ rest = '-' :: (dg :: (tl ++ rest)) from by simp,
            parseVal_cons f pre '-' _ hpre (by decide)]
          simp +decide only [isPrefL, litS, Bool.false_and, Bool.and_false, if_false, hI,
            show ('-' == '"') = false from rfl, show ('-' == '[') = false from rfl,
            show ('-' == '{') = false from rfl]
          rw [show ('-' :: dg :: (tl ++ rest)) = intToStr n ++ rest from by
            rw [hi, hdec]; simp]
          rw [parseNumFrom_print_int n rest hrest]
          simp
        · have hi : intToStr n = natToStr n.toNat := by simp [intToStr, hn]
          obtain ⟨dg, tl, hdec, hd, htl, hz⟩ := natToStr_decomp n.toNat
          obtain ⟨p1, p2, p3, p4, p5, p6⟩ := isPrefL_lit_false_digit dg (tl ++ rest) hd
          simp only [printJson]
          rw [hi, hdec,
            show (dg :: tl) ++ rest = dg :: (tl ++ rest) from rfl,
            parseVal_cons f pre dg _ hpre (isJsonWs_false_of_digit dg hd)]
          rw [if_neg (by simp [(digits_head_facts dg hd).2.1]),
            if_neg (by simp [p1]), if_neg (by simp [p2]), if_neg (by simp [p3]),
            if_neg (by simp [p4]), if_neg (by simp [p5]), if_neg (by simp [p6]),
            if_neg (by simp [isDigitC_ne dg '[' hd (by decide)]),
            if_neg (by simp [isDigitC_ne dg '{' hd (by decide)])]
          rw [show (dg :: (tl ++ rest)) = intToStr n ++ rest from by rw [hi, hdec]; simp]
          rw [parseNumFrom_print_int n rest hrest]
      | numRaw lex =>
        have hsh : numShapeOK lex := hj
        rcases hsh with h | h | h | ⟨neg, ip, fp, ep, hlex, hneg, hip, hfp, hep, hne⟩
        · subst h
          simp only [printJson]
          rw [litS_nan,
            show (['N','a','N'] : Str) ++ rest = 'N' :: ('a' :: 'N' :: rest) from rfl,
            parseVal_cons f pre 'N' _ hpre (by decide)]
          simp +decide [isPrefL, litS]
        · subst h
          simp only [printJson]
          rw [litS_inf,
            show (['I','n','f','i','n','i','t','y'] : Str) ++ rest =
              'I' :: ('n' :: 'f' :: 'i' :: 'n' :: 'i' :: 't' :: 'y' :: rest) from rfl,
            parseVal_cons f pre 'I' _ hpre (by decide)]
          simp +decide [isPrefL, litS]
        · subst h
          simp only [printJson]
          rw [litS_neginf,
            show (['-','I','n','f','i','n','i','t','y'] : Str) ++ rest =
              '-' :: ('I' :: 'n' :: 'f' :: 'i' :: 'n' :: 'i' :: 't' :: 'y' :: rest) from rfl,
            parseVal_cons f pre '-' _ hpre (by decide)]
          simp +decide [isPrefL, litS]
        · subst hlex
          rcases hneg with rfl | rfl
          · obtain ⟨c0, t0, hipeq, hc0⟩ := ipOK_decomp ip hip
            obtain ⟨p1, p2, p3, p4, p5, p6⟩ :=
              isPrefL_lit_false_digit c0 (t0 ++ (fp ++ (ep ++ rest))) hc0
            simp only [printJson]
            rw [show (([] ++ ip ++ fp ++ ep) ++ rest) =
              ip ++ (fp ++ (ep ++ rest)) from by simp]
            rw [hipeq, List.cons_append,
              parseVal_cons f pre c0 _ hpre (isJsonWs_false_of_digit c0 hc0)]
            rw [if_neg (by simp [(digits_head_facts c0 hc0).2.1]),
              if_neg (by simp [p1]), if_neg (by simp [p2]), if_neg (by simp [p3]),
              if_neg (by simp [p4]), if_neg (by simp [p5]), if_neg (by simp [p6]),
              if_neg (by simp [isDigitC_ne c0 '[' hc0 (by decide)]),
              if_neg (by simp [isDigitC_ne c0 '{' hc0 (by decide)])]
            rw [show (c0 :: (t0 ++ (fp ++ (ep ++ rest)))) =
              (([] : Str) ++ ip ++ fp ++ ep) ++ rest from by rw [hipeq]; simp]
            rw [parseNumFrom_print_shape [] ip fp ep rest (Or.inl rfl) hip hfp hep hne hrest]
            rw [hipeq]
          · obtain ⟨c0, t0, hipeq, hc0⟩ := ipOK_decomp ip hip
            have hI : ('I' == c0) = false :=
              beq_symm_false c0 'I' (isDigitC_ne c0 'I' hc0 (by decide))
            have hninf : isPrefL (litS "-Infinity")
                ('-' :: (ip ++ (fp ++ (ep ++ rest)))) = false := by
              rw [litS_neginf, hipeq, List.cons_append]
              simp [isPrefL, hI]
            simp only [printJson]
            rw [show ((['-'] ++ ip ++ fp ++ ep) ++ rest) =
              '-' :: (ip ++ (fp ++ (ep ++ rest))) from by simp]
            rw [parseVal_cons f pre '-' _ hpre (by decide)]
            rw [if_neg (by decide : ¬(('-' == '"') = true)),
              if_neg (by rw [litS_true]; simp [isPrefL_head_false '-' 't' _ _ (by decide)]),
              if_neg (by rw [litS_false]; simp [isPrefL_head_false '-' 'f' _ _ (by decide)]),
              if_neg (by rw [litS_null]; simp [isPrefL_head_false '-' 'n' _ _ (by decide)]),
              if_neg (by rw [litS_nan]; simp [isPrefL_head_false '-' 'N' _ _ (by decide)]),
              if_neg (by rw [litS_inf]; simp [isPrefL_head_false '-' 'I' _ _ (by decide)]),
              if_neg (by simp [hninf]),
              if_neg (by decide : ¬(('-' == '[') = true)),
              if_neg (by decide : ¬(('-' == '{') = true))]
            rw [show ('-' :: (ip ++ (fp ++ (ep ++ rest)))) =
              ((['-'] : Str) ++ ip ++ fp ++ ep) ++ rest from by simp]
            rw [parseNumFrom_print_shape ['-'] ip fp ep rest (Or.inr rfl) hip hfp hep hne
              hrest]
      | str s =>
        simp only [printJson, printJStr]
        rw [show (('"' :: (s.map escChar).flatten ++ ['"']) ++ rest) =
          '"' :: ((s.map escChar).flatten ++ ('"' :: rest)) from by simp]
        rw [parseVal_cons f pre '"' _ hpre (by decide)]
        rw [if_pos (by decide : ('"' == '"') = true)]
        rw [parseJStrBody_print s rest]
        rfl
      | arr xs =>
        have hxs : wfJsonItems xs := hj
        cases xs with
        | nil =>
          simp only [printJson]
          rw [show ((['[',']'] : Str) ++ rest) = '[' :: (']' :: rest) from rfl,
            parseVal_cons f pre '[' _ hpre (by decide)]
          rw [if_neg (by decide : ¬(('[' == '"') = true)),
            if_neg (by rw [litS_true]; simp [isPrefL_head_false '[' 't' _ _ (by decide)]),
            if_neg (by rw [litS_false]; simp [isPrefL_head_false '[' 'f' _ _ (by decide)]),
            if_neg (by rw [litS_null]; simp [isPrefL_head_false '[' 'n' _ _ (by decide)]),
            if_neg (by rw [litS_nan]; simp [isPrefL_head_false '[' 'N' _ _ (by decide)]),
            if_neg (by rw [litS_inf]; simp [isPrefL_head_false '[' 'I' _ _ (by decide)]),
            if_neg (by rw [litS_neginf]; simp [isPrefL_head_false '[' '-' _ _ (by decide)]),
            if_pos (by decide : ('[' == '[') = true)]
          rw [skipWs_cons_not_ws _ _ (by decide : isJsonWs ']' = false)]
          split
          · rename_i r2 heq
            rw [List.cons.injEq] at heq
            rw [heq.2]
          · rename_i hno
            exact absurd rfl (by intro h; exact (hno rest h).elim)
        | cons x xs2 =>
          obtain ⟨c0, t0, hhead, hws0, hnb0, hnb0'⟩ :=
            printArrItems_head st d x xs2 hxs.1
          simp only [printJson]
          rw [show (('[' :: st.openWs d ++ printArrItems st d (x :: xs2) ++ st.closeWs d
              ++ [']']) ++ rest) =
            '[' :: (st.openWs d ++ (printArrItems st d (x :: xs2) ++
              (st.closeWs d ++ (']' :: rest)))) from by simp]
          rw [parseVal_cons f pre '[' _ hpre (by decide)]
          rw [if_neg (by decide : ¬(('[' == '"') = true)),
            if_neg (by rw [litS_true]; simp [isPrefL_head_false '[' 't' _ _ (by decide)]),
            if_neg (by rw [litS_false]; simp [isPrefL_head_false '[' 'f' _ _ (by decide)]),
            if_neg (by rw [litS_null]; simp [isPrefL_head_false '[' 'n' _ _ (by decide)]),
            if_neg (by rw [litS_nan]; simp [isPrefL_head_false '[' 'N' _ _ (by decide)]),
            if_neg (by rw [litS_inf]; simp [isPrefL_head_false '[' 'I' _ _ (by decide)]),
            if_neg (by rw [litS_neginf]; simp [isPrefL_head_false '[' '-' _ _ (by decide)]),
            if_pos (by decide : ('[' == '[') = true)]
          rw [hhead,
            show ((c0 :: t0) ++ (st.closeWs d ++ (']' :: rest))) =
              c0 :: (t0 ++ (st.closeWs d ++ (']' :: rest))) from rfl,
            skipWs_append_ws _ _ (hst d).1, skipWs_cons_not_ws _ _ hws0]
          split
          · rename_i heq
            rw [List.cons.injEq] at heq
            exact absurd heq.1 (by simpa using hnb0)
          · rw [show (c0 :: (t0 ++ (st.closeWs d ++ (']' :: rest)))) =
              (c0 :: t0) ++ (st.closeWs d ++ (']' :: rest)) from rfl, ← hhead]
            rw [ih2 x xs2 hxs (by simp only [needFuel] at hfj; omega) d
              (st.openWs d) rest (hst d).1]
            rfl
      | obj kvs =>
        have hkvs : wfJsonMembers kvs := hj
        cases kvs with
        | nil =>
          simp only [printJson]
          rw [show ((['{','}'] : Str) ++ rest) = '{' :: ('}' :: rest) from rfl,
            parseVal_cons f pre '{' _ hpre (by decide)]
          rw [if_neg (by decide : ¬(('{' == '"') = true)),
            if_neg (by rw [litS_true]; simp [isPrefL_head_false '{' 't' _ _ (by decide)]),
            if_neg (by rw [litS_false]; simp [isPrefL_head_false '{' 'f' _ _ (by decide)]),
            if_neg (by rw [litS_null]; simp [isPrefL_head_false '{' 'n' _ _ (by decide)]),
            if_neg (by rw [litS_nan]; simp [isPrefL_head_false '{' 'N' _ _ (by decide)]),
            if_neg (by rw [litS_inf]; simp [isPrefL_head_false '{' 'I' _ _ (by decide)]),
            if_neg (by rw [litS_neginf]; simp [isPrefL_head_false '{' '-' _ _ (by decide)]),
            if_neg (by decide : ¬(('{' == '[') = true)),
            if_pos (by decide : ('{' == '{') = true)]
          rw [skipWs_cons_not_ws _ _ (by decide : isJsonWs '}' = false)]
          split
          · rename_i r2 heq
            rw [List.cons.injEq] at heq
            rw [heq.2]
          · rename_i hno
            exact absurd rfl (by intro h; exact (hno rest h).elim)
        | cons kv kvs2 =>
          obtain ⟨t0, hhead⟩ := printObjItems_head st d kv kvs2
          simp only [printJson]
          rw [show (('{' :: st.openWs d ++ printObjItems st d (kv :: kvs2) ++ st.closeWs d
              ++ ['}']) ++ rest) =
            '{' :: (st.openWs d ++ (printObjItems st d (kv :: kvs2) ++
              (st.closeWs d ++ ('}' :: rest)))) from by simp]
          rw [parseVal_cons f pre '{' _ hpre (by decide)]
          rw [if_neg (by decide : ¬(('{' == '"') = true)),
            if_neg (by rw [litS_true]; simp [isPrefL_head_false '{' 't' _ _ (by decide)]),
            if_neg (by rw [litS_false]; simp [isPrefL_head_false '{' 'f' _ _ (by decide)]),
            if_neg (by rw [litS_null]; simp [isPrefL_head_false '{' 'n' _ _ (by decide)]),
            if_neg (by rw [litS_nan]; simp [isPrefL_head_false '{' 'N' _ _ (by decide)]),
            if_neg (by rw [litS_inf]; simp [isPrefL_head_false '{' 'I' _ _ (by decide)]),
            if_neg (by rw [litS_neginf]; simp [isPrefL_head_false '{' '-' _ _ (by decide)]),
            if_neg (by decide : ¬(('{' == '[') = true)),
            if_pos (by decide : ('{' == '{') = true)]
          rw [hhead,
            show (('"' :: t0) ++ (st.closeWs d ++ ('}' :: rest))) =
              '"' :: (t0 ++ (st.closeWs d ++ ('}' :: rest))) from rfl,
            skipWs_append_ws _ _ (hst d).1,
            skipWs_cons_not_ws _ _ (by decide : isJsonWs '"' = false)]
          split
          · rename_i heq
            rw [List.cons.injEq] at heq
            exact absurd heq.1 (by decide)
          · rw [show ('"' :: (t0 ++ (st.closeWs d ++ ('}' :: rest)))) =
              ('"' :: t0) ++ (st.closeWs d ++ ('}' :: rest)) from rfl, ← hhead]
            rw [ih3 kv kvs2 hkvs (by simp only [needFuel] at hfj; omega) d
              (st.openWs d) rest (hst d).1]
            rfl
    · -- parseArrItems step
      intro x xs hxs hf d pre rest hpre
      cases xs with
      | nil =>
        simp only [printArrItems]
        simp only [parseArrItems]
        rw [ih1 x hxs.1 (by simp only [needFuelItems] at hf; omega) (d + 1) pre
          (st.closeWs d ++ (']' :: rest)) hpre
          (restOkB_ws_append _ _ (hst d).2.2 (by simp [restOkB]))]
        simp only [Option.bind_eq_bind, Option.some_bind]
        rw [skipWs_append_ws _ _ (hst d).2.2, skipWs_cons_not_ws _ _ (by decide)]
        simp
      | cons y ys =>
        simp only [printArrItems]
        simp only [parseArrItems]
        rw [show ((printJson st (d + 1) x ++ ',' :: st.sepWs d ++
            printArrItems st d (y :: ys)) ++ (st.closeWs d ++ (']' :: rest))) =
          printJson st (d + 1) x ++ (',' :: (st.sepWs d ++ (printArrItems st d (y :: ys) ++
            (st.closeWs d ++ (']' :: rest))))) from by simp]
        rw [ih1 x hxs.1 (by
          simp only [needFuelItems] at hf
          have := needFuel_pos y
          omega) (d + 1) pre _ hpre (by simp [restOkB])]
        simp only [Option.bind_eq_bind, Option.some_bind]
        rw [skipWs_cons_not_ws _ _ (by decide)]
        simp only [if_pos (by decide : (',' == ',') = true)]
        rw [ih2 y ys hxs.2 (by
          simp only [needFuelItems] at hf ⊢
          have := needFuel_pos x
          omega) d (st.sepWs d) rest (hst d).2.1]
        rfl
    · -- parseObjItems step
      intro kv kvs hkvs hf d pre rest hpre
      obtain ⟨k, v⟩ := kv
      cases kvs with
      | nil =>
        simp only [printObjItems, printJStr]
        rw [show ((('"' :: (k.map escChar).flatten ++ ['"']) ++
            (':' :: ' ' :: printJson st (d + 1) v)) ++ (st.closeWs d ++ ('}' :: rest))) =
          '"' :: ((k.map escChar).flatten ++ ('"' :: (':' :: (' ' ::
            (printJson st (d + 1) v ++ (st.closeWs d ++ ('}' :: rest))))))) from by simp]
        rw [parseObjItems_cons f pre '"' _ hpre (by decide)]
        rw [if_pos (by decide : ('"' == '"') = true)]
        rw [parseJStrBody_print k _]
        simp only [Option.bind_eq_bind, Option.some_bind]
        rw [skipWs_cons_not_ws _ _ (by decide : isJsonWs ':' = false)]
        split
        · rename_i r2 heq
          rw [List.cons.injEq] at heq
          have hv := ih1 v hkvs.1 (by simp only [needFuelMembers] at hf; omega) (d + 1)
            [' '] (st.closeWs d ++ ('}' :: rest)) (by decide)
            (restOkB_ws_append _ _ (hst d).2.2 (by simp [restOkB]))
          rw [List.singleton_append] at hv
          rw [← heq.2, hv]
          simp only [Option.bind_eq_bind, Option.some_bind]
          rw [skipWs_append_ws _ _ (hst d).2.2, skipWs_cons_not_ws _ _ (by decide)]
          simp
        · rename_i hno
          exact absurd rfl (by intro h; exact (hno _ h).elim)
      | cons kv2 kvs2 =>
        simp only [printObjItems, printJStr]
        rw [show (((('"' :: (k.map escChar).flatten ++ ['"']) ++
            (':' :: ' ' :: printJson st (d + 1) v) ++ ',' :: st.sepWs d ++
            printObjItems st d (kv2 :: kvs2))) ++ (st.closeWs d ++ ('}' :: rest))) =
          '"' :: ((k.map escChar).flatten ++ ('"' :: (':' :: (' ' ::
            (printJson st (d + 1) v ++ (',' :: (st.sepWs d ++
              (printObjItems st d (kv2 :: kvs2) ++
                (st.closeWs d ++ ('}' :: rest)))))))))) from by simp]
        rw [parseObjItems_cons f pre '"' _ hpre (by decide)]
        rw [if_pos (by decide : ('"' == '"') = true)]
        rw [parseJStrBody_print k _]
        simp only [Option.bind_eq_bind, Option.some_bind]
        rw [skipWs_cons_not_ws _ _ (by decide : isJsonWs ':' = false)]
        split
        · rename_i r2 heq
          rw [List.cons.injEq] at heq
          have hv := ih1 v hkvs.1 (by
            simp only [needFuelMembers] at hf
            omega) (d + 1)
            [' '] (',' :: (st.sepWs d ++ (printObjItems st d (kv2 :: kvs2) ++
              (st.closeWs d ++ ('}' :: rest))))) (by decide) (by simp [restOkB])
          rw [List.singleton_append] at hv
          rw [← heq.2, hv]
          simp only [Option.bind_eq_bind, Option.some_bind]
          rw [skipWs_cons_not_ws _ _ (by decide : isJsonWs ',' = false)]
          simp only [if_pos (by decide : (',' == ',') = true)]
          rw [ih3 kv2 kvs2 hkvs.2 (by
            simp only [needFuelMembers] at hf ⊢
            have := needFuel_pos v
            omega) d (st.sepWs d) rest (hst d).2.1]
          rfl
        · rename_i hno
          exact absurd rfl (by intro h; exact (hno _ h).elim)


theorem printJson_len_pos (st : PrintStyle) (d : Nat) (j : Json) (hj : wfJson j) :
    1 ≤ (printJson st d j).length := by
  obtain ⟨c, t, hh, _⟩ := printJson_head st d j hj
  rw [hh]
  simp

/-- The parser fuel needed by a value is dominated by the length of any of
its printed forms. -/
theorem needFuel_bound (st : PrintStyle) : ∀ B : Nat,
    (∀ j, wfJson j → needFuel j ≤ B → ∀ d,
      needFuel j < 2 * (printJson st d j).length) ∧
    (∀ x xs, wfJsonItems (x :: xs) → needFuelItems (x :: xs) ≤ B → ∀ d,
      needFuelItems (x :: xs) ≤ 2 * (printArrItems st d (x :: xs)).length) ∧
    (∀ kv kvs, wfJsonMembers (kv :: kvs) → needFuelMembers (kv :: kvs) ≤ B → ∀ d,
      needFuelMembers (kv :: kvs) ≤ 2 * (printObjItems st d (kv :: kvs)).length) := by
  intro B
  induction B with
  | zero =>
    refine ⟨?_, ?_, ?_⟩
    · intro j hj hfj d
      exact absurd hfj (by have := needFuel_pos j; omega)
    · intro x xs hxs hf d
      simp only [needFuelItems] at hf
      exact absurd hf (by omega)
    · intro kv kvs hkvs hf d
      simp only [needFuelMembers] at hf
      exact absurd hf (by omega)
  | succ b ih =>
    obtain ⟨ih1, ih2, ih3⟩ := ih
    refine ⟨?_, ?_, ?_⟩
    · intro j hj hfj d
      cases j with
      | null =>
        have := printJson_len_pos st d .null hj
        rw [show needFuel .null = 1 from rfl]
        omega
      | bool v =>
        have := printJson_len_pos st d (.bool v) hj
        rw [show needFuel (.bool v) = 1 from rfl]
        omega
      | num n =>
        have := printJson_len_pos st d (.num n) hj
        rw [show needFuel (.num n) = 1 from rfl]
        omega
      | numRaw lex =>
        have := printJson_len_pos st d (.numRaw lex) hj
        rw [show needFuel (.numRaw lex) = 1 from rfl]
        omega
      | str s =>
        have := printJson_len_pos st d (.str s) hj
        rw [show needFuel (.str s) = 1 from rfl]
        omega
      | arr xs =>
        cases xs with
        | nil => simp [needFuel, needFuelItems, printJson]
        | cons x xs2 =>
          have hxs : wfJsonItems (x :: xs2) := hj
          have hit := ih2 x xs2 hxs (by
            simp only [needFuel] at hfj; omega) d
          have hlen : (printJson st d (.arr (x :: xs2))).length =
              1 + ((st.openWs d).length + ((printArrItems st d (x :: xs2)).length +
                ((st.closeWs d).length + 1))) := by
            simp [printJson]
            omega
          rw [show needFuel (.arr (x :: xs2)) = needFuelItems (x :: xs2) + 1 from rfl,
            hlen]
          omega
      | obj kvs =>
        cases kvs with
        | nil => simp [needFuel, needFuelMembers, printJson]
        | cons kv kvs2 =>
          have hkvs : wfJsonMembers (kv :: kvs2) := hj
          have hit := ih3 kv kvs2 hkvs (by
            simp only [needFuel] at hfj; omega) d
          have hlen : (printJson st d (.obj (kv :: kvs2))).length =
              1 + ((st.openWs d).length + ((printObjItems st d (kv :: kvs2)).length +
                ((st.closeWs d).length + 1))) := by
            simp [printJson]
            omega
          rw [show needFuel (.obj (kv :: kvs2)) = needFuelMembers (kv :: kvs2) + 1 from rfl,
            hlen]
          omega
    · intro x xs hxs hf d
      cases xs with
      | nil =>
        have h1 := ih1 x hxs.1 (by simp only [needFuelItems] at hf; omega) (d + 1)
        rw [show needFuelItems [x] = needFuel x + 1 from by
          simp [needFuelItems]]
        rw [show printArrItems st d [x] = printJson st (d + 1) x from rfl]
        omega
      | cons y ys =>
        have h1 := ih1 x hxs.1 (by
          simp only [needFuelItems] at hf
          have := needFuel_pos y
          omega) (d + 1)
        have h2 := ih2 y ys hxs.2 (by
          simp only [needFuelItems] at hf ⊢
          have := needFuel_pos x
          omega) d
        have hlen : (printArrItems st d (x :: y :: ys)).length =
            (printJson st (d + 1) x).length + (1 + ((st.sepWs d).length +
              (printArrItems st d (y :: ys)).length)) := by
          simp [printArrItems]
          omega
        rw [show needFuelItems (x :: y :: ys) =
          needFuel x + needFuelItems (y :: ys) + 1 from rfl, hlen]
        omega
    · intro kv kvs hkvs hf d
      cases kvs with
      | nil =>
        have h1 := ih1 kv.2 hkvs.1 (by simp only [needFuelMembers] at hf; omega) (d + 1)
        have hlen : (printObjItems st d [kv]).length =
            (printJStr kv.1).length + (2 + (printJson st (d + 1) kv.2).length) := by
          simp [printObjItems]
          omega
        rw [show needFuelMembers [kv] = needFuel kv.2 + 1 from by
          simp [needFuelMembers], hlen]
        omega
      | cons kv2 kvs2 =>
        have h1 := ih1 kv.2 hkvs.1 (by
          simp only [needFuelMembers] at hf
          have := needFuel_pos kv2.2
          omega) (d + 1)
        have h2 := ih3 kv2 kvs2 hkvs.2 (by
          simp only [needFuelMembers] at hf ⊢
          have := needFuel_pos kv.2
          omega) d
        have hlen : (printObjItems st d (kv :: kv2 :: kvs2)).length =
            (printJStr kv.1).length + (2 + ((printJson st (d + 1) kv.2).length +
              (1 + ((st.sepWs d).length + (printObjItems st d (kv2 :: kvs2)).length)))) := by
          simp [printObjItems]
          omega
        rw [show needFuelMembers (kv :: kv2 :: kvs2) =
          needFuel kv.2 + needFuelMembers (kv2 :: kvs2) + 1 from rfl, hlen]
        omega

/-- `json.loads` inverts `json.dumps` under any whitespace-only layout. -/
theorem jsonParse_print (st : PrintStyle) (hst : styleWsOK st) (j : Json)
    (hj : wfJson j) : jsonParse (printJson st 0 j) = some j := by
  rw [jsonParse]
  have hfuel : needFuel j ≤ 2 * (printJson st 0 j).length + 2 := by
    have := (needFuel_bound st (needFuel j)).1 j hj le_rfl 0
    omega
  have hp := (printParse st hst (2 * (printJson st 0 j).length + 2)).1 j hj hfuel 0 [] []
    rfl rfl
  rw [List.nil_append, List.append_nil] at hp
  rw [hp]
  rfl

theorem styleWsOK_compact : styleWsOK compactStyle := by
  intro d
  exact ⟨rfl, rfl, rfl⟩

theorem styleWsOK_indent2 : styleWsOK indent2Style := by
  intro d
  have hrep : ∀ n : Nat, (List.replicate n ' ').all isJsonWs = true := by
    intro n
    rw [List.all_eq_true]
    intro c hc
    rw [List.eq_of_mem_replicate hc]
    decide
  refine ⟨?_, ?_, ?_⟩ <;> simp [indent2Style, List.all_cons, hrep] <;> decide

/-- Embedded `json.loads` inverts embedded `json.dumps(..., ensure_ascii=False)`. -/
theorem jsonParse_dumpsCompact (j : Json) (hj : wfJson j) :
    jsonParse (dumpsCompact j) = some j :=
  jsonParse_print compactStyle styleWsOK_compact j hj

/-- Embedded `json.loads` inverts embedded
`json.dumps(..., ensure_ascii=False, indent=2)`. -/
theorem jsonParse_dumpsIndent2 (j : Json) (hj : wfJson j) :
    jsonParse (dumpsIndent2 j) = some j :=
  jsonParse_print indent2Style styleWsOK_indent2 j hj


theorem nudgeResp_decomp (x : Option Str) (h : nudgeResp x = true) :
    ∃ r, x = some r ∧ r.isEmpty = false ∧ (checkResponseSafety r).1 = true ∧
      containsSub finalMarker r = false ∧ parseToolCalls r = .ok [] := by
  cases x with
  | none => simp [nudgeResp] at h
  | some r =>
    simp only [nudgeResp, Bool.and_eq_true, Bool.not_eq_true'] at h
    obtain ⟨⟨⟨hne, hsafe⟩, hmark⟩, hptc⟩ := h
    refine ⟨r, rfl, hne, hsafe, hmark, ?_⟩
    cases hp : parseToolCalls r with
    | error e => rw [hp] at hptc; simp at hptc
    | ok l =>
      cases l with
      | nil => rfl
      | cons a b => rw [hp] at hptc; simp at hptc

theorem runLoop_zero (reg : ToolRegistry) (oracle : Nat → Option Str)
    (iter calls : Nat) (log : List Str) :
    runLoop reg oracle 0 iter calls log =
      ⟨[(joinNl (log ++ [limitLine]), limitMsg)], calls, false⟩ := rfl

theorem runLoop_nudge_step (reg : ToolRegistry) (oracle : Nat → Option Str)
    (f iter calls : Nat) (log : List Str) (h : nudgeResp (oracle calls) = true) :
    runLoop reg oracle (f + 1) iter calls log =
      ⟨(joinNl (log ++ [iterLine (iter + 1)]), []) ::
       (joinNl ((log ++ [iterLine (iter + 1)]) ++ [noToolsLine]), []) ::
       (runLoop reg oracle f (iter + 1) (calls + 1)
         ((log ++ [iterLine (iter + 1)]) ++ [noToolsLine])).yields,
       (runLoop reg oracle f (iter + 1) (calls + 1)
         ((log ++ [iterLine (iter + 1)]) ++ [noToolsLine])).llmCalls,
       (runLoop reg oracle f (iter + 1) (calls + 1)
         ((log ++ [iterLine (iter + 1)]) ++ [noToolsLine])).crashed⟩ := by
  obtain ⟨r, hor, hne, hsafe, hmark, hptc⟩ := nudgeResp_decomp _ h
  simp only [runLoop, hor, hne, hsafe, hmark, hptc, Bool.not_true, Bool.false_eq_true,
    if_false]

theorem runLoop_unsafe_step (reg : ToolRegistry) (oracle : Nat → Option Str)
    (f iter calls : Nat) (log : List Str) (r : Str) (hor : oracle calls = some r)
    (hne : r.isEmpty = false) (hsafe : (checkResponseSafety r).1 = false) :
    runLoop reg oracle (f + 1) iter calls log =
      ⟨[(joinNl (log ++ [iterLine (iter + 1)]), []),
        (joinNl ((log ++ [iterLine (iter + 1)]) ++ [unsafeLine]), unsafeMsg)],
       calls + 1, false⟩ := by
  simp only [runLoop, hor, hne, hsafe, Bool.not_false, Bool.false_eq_true, if_false,
    if_true]

theorem runLoop_final_step (reg : ToolRegistry) (oracle : Nat → Option Str)
    (f iter calls : Nat) (log : List Str) (r : Str) (hor : oracle calls = some r)
    (hne : r.isEmpty = false) (hsafe : (checkResponseSafety r).1 = true)
    (hmark : containsSub finalMarker r = true) :
    runLoop reg oracle (f + 1) iter calls log =
      ⟨[(joinNl (log ++ [iterLine (iter + 1)]), []),
        (joinNl ((log ++ [iterLine (iter + 1)]) ++ [finalLine]), extractFinal r)],
       calls + 1, false⟩ := by
  simp only [runLoop, hor, hne, hsafe, hmark, Bool.not_true, Bool.false_eq_true,
    if_false, if_true]

theorem runLoop_skip (reg : ToolRegistry) (oracle : Nat → Option Str) :
    ∀ (k fuel iter calls : Nat) (log : List Str),
      (∀ i, i < k → nudgeResp (oracle (calls + i)) = true) → k ≤ fuel →
      ∃ (pre : List (Str × Str)) (log2 : List Str),
        pre.length = 2 * k ∧ (∀ y ∈ pre, y.2 = ([] : Str)) ∧
        runLoop reg oracle fuel iter calls log =
          ⟨pre ++ (runLoop reg oracle (fuel - k) (iter + k) (calls + k) log2).yields,
           (runLoop reg oracle (fuel - k) (iter + k) (calls + k) log2).llmCalls,
           (runLoop reg oracle (fuel - k) (iter + k) (calls + k) log2).crashed⟩ := by
  intro k
  induction k with
  | zero =>
    intro fuel iter calls log hpre hk
    exact ⟨[], log, rfl, by simp, by simp⟩
  | succ k ih =>
    intro fuel iter calls log hpre hk
    cases fuel with
    | zero => omega
    | succ f =>
      have h0 : nudgeResp (oracle calls) = true := by
        have := hpre 0 (by omega)
        simpa using this
      rw [runLoop_nudge_step reg oracle f iter calls log h0]
      obtain ⟨pre, log2, hlen, hfin, heq⟩ := ih f (iter + 1) (calls + 1)
        ((log ++ [iterLine (iter + 1)]) ++ [noToolsLine])
        (fun i hi => by
          have := hpre (i + 1) (by omega)
          rw [show calls + (i + 1) = calls + 1 + i from by omega] at this
          exact this) (by omega)
      rw [heq]
      have e1 : f - k = f + 1 - (k + 1) := by omega
      have e2 : iter + 1 + k = iter + (k + 1) := by omega
      have e3 : calls + 1 + k = calls + (k + 1) := by omega
      rw [e1, e2, e3]
      refine ⟨(joinNl (log ++ [iterLine (iter + 1)]), []) ::
        (joinNl ((log ++ [iterLine (iter + 1)]) ++ [noToolsLine]), []) :: pre,
        log2, ?_, ?_, ?_⟩
      · simp only [List.length_cons, hlen]
        omega
      · intro y hy
        rcases List.mem_cons.mp hy with rfl | hy
        · rfl
        · rcases List.mem_cons.mp hy with rfl | hy
          · rfl
          · exact hfin y hy
      · simp



theorem limitMsg_ne : limitMsg ≠ ([] : Str) := by decide

theorem llmFailMsg_ne : llmFailMsg ≠ ([] : Str) := by decide

theorem unsafeMsg_ne : unsafeMsg ≠ ([] : Str) := by decide

theorem emptyQueryMsg_ne : emptyQueryMsg ≠ ([] : Str) := by decide

theorem toolLoop_finals (reg : ToolRegistry) : ∀ (tcs : List Json) (log : List Str),
    ∀ y ∈ (toolLoop reg log tcs).1, y.2 = ([] : Str) := by
  intro tcs
  induction tcs with
  | nil =>
    intro log y hy
    simp [toolLoop] at hy
  | cons tc rest ih =>
    intro log y hy
    simp only [toolLoop] at hy
    split at hy
    · split at hy
      · simp at hy
        subst hy
        rfl
      · split at hy
        · simp at hy
          subst hy
          rfl
        · rcases List.mem_cons.mp hy with rfl | hy
          · rfl
          · exact ih _ y hy
    · simp at hy

theorem runLoop_invariant (reg : ToolRegistry) (oracle : Nat → Option Str) :
    ∀ (fuel iter calls : Nat) (log : List Str),
      (∀ y ∈ (runLoop reg oracle fuel iter calls log).yields.dropLast,
        y.2 = ([] : Str)) ∧
      (runLoop reg oracle fuel iter calls log).yields ≠ [] ∧
      ((runLoop reg oracle fuel iter calls log).crashed = false →
        ∃ y, (runLoop reg oracle fuel iter calls log).yields.getLast? = some y ∧
          (y.2 ≠ [] ∨ ∃ c r, oracle c = some r ∧ containsSub finalMarker r = true ∧
            extractFinal r = [])) := by
  intro fuel
  induction fuel with
  | zero =>
    intro iter calls log
    rw [runLoop_zero]
    refine ⟨by simp, by simp, fun _ => by exact ⟨_, rfl, Or.inl limitMsg_ne⟩⟩
  | succ f ih =>
    intro iter calls log
    cases hor : oracle calls with
    | none =>
      simp only [runLoop, hor]
      refine ⟨by simp, by simp, fun _ => by exact ⟨_, rfl, Or.inl llmFailMsg_ne⟩⟩
    | some r =>
      by_cases hne : r.isEmpty
      · simp only [runLoop, hor, hne, if_true]
        refine ⟨by simp, by simp, fun _ => by exact ⟨_, rfl, Or.inl llmFailMsg_ne⟩⟩
      · by_cases hsafe : (checkResponseSafety r).1
        · by_cases hmark : containsSub finalMarker r
          · rw [runLoop_final_step reg oracle f iter calls log r hor
              (by simpa using hne) (by simpa using hsafe) (by simpa using hmark)]
            refine ⟨by simp, by simp, fun _ => ?_⟩
            refine ⟨_, rfl, ?_⟩
            by_cases hext : extractFinal r = []
            · exact Or.inr ⟨calls, r, hor, by simpa using hmark, hext⟩
            · exact Or.inl hext
          · have hne2 : r.isEmpty = false := by simpa using hne
            have hmark2 : containsSub finalMarker r = false := by simpa using hmark
            cases hp : parseToolCalls r with
            | error e =>
              simp only [runLoop, hor, hne2, hsafe, hmark2, Bool.not_true,
                Bool.false_eq_true, if_false, hp]
              refine ⟨?_, by simp, fun hc => by simp at hc⟩
              intro y hy
              simp at hy
            | ok l =>
              cases l with
              | nil =>
                rw [runLoop_nudge_step reg oracle f iter calls log (by
                  simp [nudgeResp, hor, hp, hne2, hsafe, hmark2])]
                obtain ⟨ih1, ih2, ih3⟩ := ih (iter + 1) (calls + 1)
                  ((log ++ [iterLine (iter + 1)]) ++ [noToolsLine])
                refine ⟨?_, by simp, ?_⟩
                · intro y hy
                  rw [List.dropLast_cons_of_ne_nil (by simp),
                    List.dropLast_cons_of_ne_nil ih2] at hy
                  rcases List.mem_cons.mp hy with rfl | hy
                  · rfl
                  · rcases List.mem_cons.mp hy with rfl | hy
                    · rfl
                    · exact ih1 y hy
                · intro hc
                  obtain ⟨y, hlast, hy⟩ := ih3 hc
                  refine ⟨y, ?_, hy⟩
                  rw [show ((joinNl (log ++ [iterLine (iter + 1)]), ([] : Str)) ::
                    (joinNl ((log ++ [iterLine (iter + 1)]) ++ [noToolsLine]),
                      ([] : Str)) ::
                    (runLoop reg oracle f (iter + 1) (calls + 1)
                      ((log ++ [iterLine (iter + 1)]) ++ [noToolsLine])).yields) =
                    [(joinNl (log ++ [iterLine (iter + 1)]), ([] : Str)),
                     (joinNl ((log ++ [iterLine (iter + 1)]) ++ [noToolsLine]),
                      ([] : Str))] ++
                    (runLoop reg oracle f (iter + 1) (calls + 1)
                      ((log ++ [iterLine (iter + 1)]) ++ [noToolsLine])).yields
                    from rfl,
                    List.getLast?_append_of_ne_nil _ ih2]
                  exact hlast
              | cons tc tcs =>
                simp only [runLoop, hor, hne2, hsafe, hmark2, Bool.not_true,
                  Bool.false_eq_true, if_false, hp]
                by_cases hcrash : (toolLoop reg (log ++ [iterLine (iter + 1)])
                    (tc :: tcs)).2.2
                · simp only [hcrash, if_true]
                  refine ⟨?_, by simp, fun hc => by simp at hc⟩
                  intro y hy
                  have hy2 : y ∈ (joinNl (log ++ [iterLine (iter + 1)]), ([] : Str)) ::
                      (toolLoop reg (log ++ [iterLine (iter + 1)]) (tc :: tcs)).1 :=
                    List.dropLast_subset _ hy
                  rcases List.mem_cons.mp hy2 with rfl | hy2
                  · rfl
                  · exact toolLoop_finals reg (tc :: tcs) _ y hy2
                · simp only [hcrash, Bool.false_eq_true, if_false]
                  obtain ⟨ih1, ih2, ih3⟩ := ih (iter + 1) (calls + 1)
                    (toolLoop reg (log ++ [iterLine (iter + 1)]) (tc :: tcs)).2.1
                  refine ⟨?_, by simp, ?_⟩
                  · intro y hy
                    rw [List.dropLast_append_of_ne_nil _ ih2] at hy
                    rcases List.mem_append.mp hy with hy | hy
                    · rcases List.mem_cons.mp hy with rfl | hy
                      · rfl
                      · exact toolLoop_finals reg (tc :: tcs) _ y hy
                    · exact ih1 y hy
                  · intro hc
                    obtain ⟨y, hlast, hy⟩ := ih3 hc
                    refine ⟨y, ?_, hy⟩
                    rw [List.getLast?_append_of_ne_nil _ ih2]
                    exact hlast
        · rw [runLoop_unsafe_step reg oracle f iter calls log r hor
            (by simpa using hne) (by simpa using hsafe)]
          refine ⟨by simp, by simp, fun _ => by exact ⟨_, rfl, Or.inl unsafeMsg_ne⟩⟩



theorem runLoop_congr_unsafe (reg : ToolRegistry) (o1 o2 : Nat → Option Str) (k : Nat)
    (hagree : ∀ c, c ≠ k → o1 c = o2 c)
    (h1 : ∃ r, o1 k = some r ∧ r.isEmpty = false ∧ (checkResponseSafety r).1 = false)
    (h2 : ∃ r, o2 k = some r ∧ r.isEmpty = false ∧ (checkResponseSafety r).1 = false) :
    ∀ (fuel iter calls : Nat) (log : List Str),
      runLoop reg o1 fuel iter calls log = runLoop reg o2 fuel iter calls log := by
  intro fuel
  induction fuel with
  | zero => intro iter calls log; rfl
  | succ f ih =>
    intro iter calls log
    by_cases hc : calls = k
    · subst hc
      obtain ⟨r1, e1, n1, s1⟩ := h1
      obtain ⟨r2, e2, n2, s2⟩ := h2
      rw [runLoop_unsafe_step reg o1 f iter calls log r1 e1 n1 s1,
        runLoop_unsafe_step reg o2 f iter calls log r2 e2 n2 s2]
    · have he : o1 calls = o2 calls := hagree calls hc
      simp only [runLoop, ← he]
      cases ho : o1 calls with
      | none => rfl
      | some r =>
        by_cases hre : r.isEmpty
        · simp [hre]
        · by_cases hsafe : (checkResponseSafety r).1
          · by_cases hmark : containsSub finalMarker r
            · simp [hre, hsafe, hmark]
            · have hne2 : r.isEmpty = false := by simpa using hre
              have hmark2 : containsSub finalMarker r = false := by simpa using hmark
              simp only [hne2, hsafe, hmark2, Bool.not_true, Bool.false_eq_true,
                if_false]
              cases hp : parseToolCalls r with
              | error e => rfl
              | ok l =>
                cases l with
                | nil => rw [ih]
                | cons tc tcs =>
                  by_cases hcr : (toolLoop reg (log ++ [iterLine (iter + 1)])
                      (tc :: tcs)).2.2
                  · simp [hcr]
                  · simp only [hcr, Bool.false_eq_true, if_false]
                    rw [ih]
          · have hne2 : r.isEmpty = false := by simpa using hre
            have hs2 : (checkResponseSafety r).1 = false := by simpa using hsafe
            simp [hne2, hs2]



/-- C1: for `max_iterations = N ≥ 1` and a sanitized non-empty query, an LLM
whose every completion succeeds, passes the safety check, carries no
final-answer marker and yields no parsed tool call drives `run_stream`
through exactly `N` iterations — exactly `N` LLM calls, `2N + 1` yields —
and the run terminates in the exhausted state with the refine-request
message, never `N + 1` iterations and never without terminating. -/
theorem c1_iteration_bound (reg : ToolRegistry) (oracle : Nat → Option Str)
    (N : Nat) (query : Str)
    (hq : (pyStrip (sanitizeInput query 5000).1).isEmpty = false)
    (hN : 1 ≤ N)
    (h : ∀ k, nudgeResp (oracle k) = true) :
    (runStream reg oracle N query).llmCalls = N ∧
    (runStream reg oracle N query).crashed = false ∧
    (runStream reg oracle N query).yields.length = 2 * N + 1 ∧
    ((runStream reg oracle N query).yields.getLast?).map Prod.snd = some limitMsg := by
  have hrs : runStream reg oracle N query = runLoop reg oracle N 0 0 [] := by
    simp [runStream, hq]
  obtain ⟨pre, log2, hlen, hfin, heq⟩ := runLoop_skip reg oracle N N 0 0 []
    (fun i _ => h (0 + i)) le_rfl
  rw [hrs, heq, show N - N = 0 from by omega, runLoop_zero]
  refine ⟨by simp, rfl, ?_, ?_⟩
  · simp only [List.length_append, List.length_cons, List.length_nil, hlen]
  · rw [show (pre ++ [(joinNl (log2 ++ [limitLine]), limitMsg)] : List (Str × Str)) =
      pre ++ [(joinNl (log2 ++ [limitLine]), limitMsg)] from rfl,
      List.getLast?_concat]
    rfl

/-- C2: when the first `k` completions only nudge the loop onward and the
`k`-th completion (with `k` below the iteration budget) is non-empty but
fails the safety check, the run aborts at that very iteration with the
safety-rejection message as final result, `k + 1` LLM calls and no crash;
and the entire run result is unchanged when the unsafe response text is
replaced by any other unsafe text, so no yielded line or final result ever
includes the raw unsafe response. -/
theorem c2_safety_abort (reg : ToolRegistry) (oracle o2 : Nat → Option Str)
    (N k : Nat) (query : Str) (r : Str)
    (hq : (pyStrip (sanitizeInput query 5000).1).isEmpty = false)
    (hk : k < N)
    (hpre : ∀ i, i < k → nudgeResp (oracle i) = true)
    (hor : oracle k = some r)
    (hne : r.isEmpty = false)
    (hunsf : (checkResponseSafety r).1 = false)
    (hagree : ∀ c, c ≠ k → o2 c = oracle c)
    (hr2 : ∃ r2, o2 k = some r2 ∧ r2.isEmpty = false ∧
      (checkResponseSafety r2).1 = false) :
    ((runStream reg oracle N query).yields.getLast?).map Prod.snd = some unsafeMsg ∧
    (runStream reg oracle N query).llmCalls = k + 1 ∧
    (runStream reg oracle N query).crashed = false ∧
    (runStream reg oracle N query).yields.length = 2 * k + 2 ∧
    runStream reg o2 N query = runStream reg oracle N query := by
  have hrs : runStream reg oracle N query = runLoop reg oracle N 0 0 [] := by
    simp [runStream, hq]
  have hrs2 : runStream reg o2 N query = runLoop reg o2 N 0 0 [] := by
    simp [runStream, hq]
  obtain ⟨pre, log2, hlen, hfin, heq⟩ := runLoop_skip reg oracle k N 0 0 []
    (fun i hi => by simpa using hpre i hi) (by omega)
  obtain ⟨m, hm⟩ : ∃ m, N - k = m + 1 := ⟨N - k - 1, by omega⟩
  rw [hrs, heq, hm, show (0 : Nat) + k = k from by omega,
    runLoop_unsafe_step reg oracle m k k log2 r hor hne hunsf]
  refine ⟨?_, rfl, rfl, ?_, ?_⟩
  · rw [show (pre ++ [(joinNl (log2 ++ [iterLine (k + 1)]), ([] : Str)),
      (joinNl ((log2 ++ [iterLine (k + 1)]) ++ [unsafeLine]), unsafeMsg)] :
        List (Str × Str)) =
      (pre ++ [(joinNl (log2 ++ [iterLine (k + 1)]), ([] : Str))]) ++
      [(joinNl ((log2 ++ [iterLine (k + 1)]) ++ [unsafeLine]), unsafeMsg)] from by
        simp, List.getLast?_concat]
    rfl
  · simp only [List.length_append, List.length_cons, List.length_nil, hlen]
  · have hcongr := runLoop_congr_unsafe reg o2 oracle k hagree hr2
      ⟨r, hor, hne, hunsf⟩ N 0 0 []
    rw [hrs2, hcongr, heq, hm, show (0 : Nat) + k = k from by omega,
      runLoop_unsafe_step reg oracle m k k log2 r hor hne hunsf]

/-- C3: when the first `k` completions only nudge the loop onward and the
`k`-th completion passes the safety check and contains the final-answer
marker, the run terminates in that same iteration with final result
`extractFinal r` — the text after the last occurrence of the marker,
stripped of surrounding whitespace — after exactly `k + 1` LLM calls; with
`k = 0` this is termination after exactly one iteration. -/
theorem c3_final_marker (reg : ToolRegistry) (oracle : Nat → Option Str)
    (N k : Nat) (query : Str) (r : Str)
    (hq : (pyStrip (sanitizeInput query 5000).1).isEmpty = false)
    (hk : k < N)
    (hpre : ∀ i, i < k → nudgeResp (oracle i) = true)
    (hor : oracle k = some r)
    (hne : r.isEmpty = false)
    (hsafe : (checkResponseSafety r).1 = true)
    (hmark : containsSub finalMarker r = true) :
    ((runStream reg oracle N query).yields.getLast?).map Prod.snd =
      some (extractFinal r) ∧
    (runStream reg oracle N query).llmCalls = k + 1 ∧
    (runStream reg oracle N query).crashed = false ∧
    (runStream reg oracle N query).yields.length = 2 * k + 2 ∧
    extractFinal r = pyStrip (afterLastSub finalMarker r) := by
  have hrs : runStream reg oracle N query = runLoop reg oracle N 0 0 [] := by
    simp [runStream, hq]
  obtain ⟨pre, log2, hlen, hfin, heq⟩ := runLoop_skip reg oracle k N 0 0 []
    (fun i hi => by simpa using hpre i hi) (by omega)
  obtain ⟨m, hm⟩ : ∃ m, N - k = m + 1 := ⟨N - k - 1, by omega⟩
  rw [hrs, heq, hm, show (0 : Nat) + k = k from by omega,
    runLoop_final_step reg oracle m k k log2 r hor hne hsafe hmark]
  refine ⟨?_, rfl, rfl, ?_, rfl⟩
  · rw [show (pre ++ [(joinNl (log2 ++ [iterLine (k + 1)]), ([] : Str)),
      (joinNl ((log2 ++ [iterLine (k + 1)]) ++ [finalLine]), extractFinal r)] :
        List (Str × Str)) =
      (pre ++ [(joinNl (log2 ++ [iterLine (k + 1)]), ([] : Str))]) ++
      [(joinNl ((log2 ++ [iterLine (k + 1)]) ++ [finalLine]), extractFinal r)] from by
        simp, List.getLast?_concat]
    rfl
  · simp only [List.length_append, List.length_cons, List.length_nil, hlen]



/-- C9 (amended): in every run, every yielded pair before the last has an
empty final result and nothing is yielded after a non-empty final result;
a run that completes without an uncaught exception ends with a terminal
yield whose final result is non-empty — unless the terminating response's
final-answer marker is followed by whitespace only, in which case the
terminal final result is the empty string. -/
theorem c9_stream_invariant (reg : ToolRegistry) (oracle : Nat → Option Str)
    (N : Nat) (query : Str) :
    (∀ y ∈ (runStream reg oracle N query).yields.dropLast, y.2 = ([] : Str)) ∧
    (runStream reg oracle N query).yields ≠ [] ∧
    ((runStream reg oracle N query).crashed = false →
      ∃ y, (runStream reg oracle N query).yields.getLast? = some y ∧
        (y.2 ≠ [] ∨ ∃ c r, oracle c = some r ∧ containsSub finalMarker r = true ∧
          extractFinal r = [])) := by
  by_cases hq : (pyStrip (sanitizeInput query 5000).1).isEmpty
  · simp only [runStream, hq, if_true]
    exact ⟨by simp, by simp, fun _ => by exact ⟨_, rfl, Or.inl emptyQueryMsg_ne⟩⟩
  · have hq2 : (pyStrip (sanitizeInput query 5000).1).isEmpty = false := by
      simpa using hq
    simp only [runStream, hq2, Bool.false_eq_true, if_false]
    exact runLoop_invariant reg oracle N 0 0 []

/-- C9 (counterexample): a model that replies exactly the final-answer
marker completes the run without a crash, yet the last yielded pair has an
empty final result — against the claim that the last pair of a completed
run has a non-empty one. -/
theorem c9_counterexample :
    (runStream (fun _ => none) (fun _ => some finalMarker) 8
        (litS "запрос")).crashed = false ∧
    ((runStream (fun _ => none) (fun _ => some finalMarker) 8
        (litS "запрос")).yields.getLast?).map Prod.snd = some ([] : Str) := by
  decide

theorem c1_iteration_bound_witness :
    (runStream (fun _ => none) (fun _ => some (litS "думаю")) 2
        (litS "тест")).llmCalls = 2 ∧
    (runStream (fun _ => none) (fun _ => some (litS "думаю")) 2
        (litS "тест")).crashed = false ∧
    (runStream (fun _ => none) (fun _ => some (litS "думаю")) 2
        (litS "тест")).yields.length = 2 * 2 + 1 ∧
    ((runStream (fun _ => none) (fun _ => some (litS "думаю")) 2
        (litS "тест")).yields.getLast?).map Prod.snd = some limitMsg :=
  c1_iteration_bound (fun _ => none) (fun _ => some (litS "думаю")) 2 (litS "тест")
    (by decide) (by decide)
    (fun k => by
      show nudgeResp (some (litS "думаю")) = true
      decide)

theorem c2_safety_abort_witness :
    ((runStream (fun _ => none)
        (fun c => if c = 0 then some (litS "os.system('x')") else none) 3
        (litS "тест")).yields.getLast?).map Prod.snd = some unsafeMsg ∧
    (runStream (fun _ => none)
        (fun c => if c = 0 then some (litS "os.system('x')") else none) 3
        (litS "тест")).llmCalls = 0 + 1 ∧
    (runStream (fun _ => none)
        (fun c => if c = 0 then some (litS "os.system('x')") else none) 3
        (litS "тест")).crashed = false ∧
    (runStream (fun _ => none)
        (fun c => if c = 0 then some (litS "os.system('x')") else none) 3
        (litS "тест")).yields.length = 2 * 0 + 2 ∧
    runStream (fun _ => none)
        (fun c => if c = 0 then some (litS "subprocess.run(['x'])") else none) 3
        (litS "тест") =
      runStream (fun _ => none)
        (fun c => if c = 0 then some (litS "os.system('x')") else none) 3
        (litS "тест") :=
  c2_safety_abort (fun _ => none)
    (fun c => if c = 0 then some (litS "os.system('x')") else none)
    (fun c => if c = 0 then some (litS "subprocess.run(['x'])") else none)
    3 0 (litS "тест") (litS "os.system('x')") (by decide) (by omega)
    (fun i hi => absurd hi (by omega)) rfl (by decide) (by decide)
    (fun c hc => by simp [hc])
    ⟨litS "subprocess.run(['x'])", rfl, by decide, by decide⟩

theorem c3_final_marker_witness :
    ((runStream (fun _ => none)
        (fun _ => some (litS "ФИНАЛЬНЫЙ ОТВЕТ: готово")) 3
        (litS "тест")).yields.getLast?).map Prod.snd =
      some (extractFinal (litS "ФИНАЛЬНЫЙ ОТВЕТ: готово")) ∧
    (runStream (fun _ => none)
        (fun _ => some (litS "ФИНАЛЬНЫЙ ОТВЕТ: готово")) 3
        (litS "тест")).llmCalls = 0 + 1 ∧
    (runStream (fun _ => none)
        (fun _ => some (litS "ФИНАЛЬНЫЙ ОТВЕТ: готово")) 3
        (litS "тест")).crashed = false ∧
    (runStream (fun _ => none)
        (fun _ => some (litS "ФИНАЛЬНЫЙ ОТВЕТ: готово")) 3
        (litS "тест")).yields.length = 2 * 0 + 2 ∧
    extractFinal (litS "ФИНАЛЬНЫЙ ОТВЕТ: готово") =
      pyStrip (afterLastSub finalMarker (litS "ФИНАЛЬНЫЙ ОТВЕТ: готово")) :=
  c3_final_marker (fun _ => none)
    (fun _ => some (litS "ФИНАЛЬНЫЙ ОТВЕТ: готово")) 3 0 (litS "тест")
    (litS "ФИНАЛЬНЫЙ ОТВЕТ: готово") (by decide) (by omega)
    (fun i hi => absurd hi (by omega)) rfl (by decide) (by decide) (by decide)


theorem range_map_shift {α : Type} (g : Nat → α) (k : Nat) :
    (List.range (k + 1)).map g = g 0 :: (List.range k).map (fun i => g (i + 1)) := by
  rw [List.range_succ_eq_map, List.map_cons, List.map_map]
  rfl

theorem callLLMGo_char (o : Nat → LLMOutcome) :
    ∀ (k a fuel : Nat), (∀ i, i < k → retryable (o (a + i)) = true) → k ≤ fuel →
      (∀ c, o (a + k) = .ok c → k < fuel →
        callLLMGo o fuel a =
          (some c, (List.range k).map (fun i => waitOf o (a + i)))) ∧
      ((o (a + k) = .httpOther ∨ o (a + k) = .excOther) → k < fuel →
        callLLMGo o fuel a =
          (none, (List.range k).map (fun i => waitOf o (a + i)))) ∧
      (k = fuel →
        callLLMGo o fuel a =
          (none, (List.range k).map (fun i => waitOf o (a + i)))) := by
  intro k
  induction k with
  | zero =>
    intro a fuel hpre hk
    refine ⟨?_, ?_, ?_⟩
    · intro c hc hlt
      obtain ⟨f, rfl⟩ : ∃ f, fuel = f + 1 := ⟨fuel - 1, by omega⟩
      rw [show a + 0 = a from by omega] at hc
      simp [callLLMGo, hc]
    · intro hc hlt
      obtain ⟨f, rfl⟩ : ∃ f, fuel = f + 1 := ⟨fuel - 1, by omega⟩
      rw [show a + 0 = a from by omega] at hc
      rcases hc with hc | hc <;> simp [callLLMGo, hc]
    · intro hc
      subst hc
      rfl
  | succ k ih =>
    intro a fuel hpre hk
    obtain ⟨f, rfl⟩ : ∃ f, fuel = f + 1 := ⟨fuel - 1, by omega⟩
    have h0 : retryable (o a) = true := by
      have := hpre 0 (by omega)
      rwa [show a + 0 = a from by omega] at this
    have hshift : ∀ i, i < k → retryable (o (a + 1 + i)) = true := fun i hi => by
      have := hpre (i + 1) (by omega)
      rwa [show a + (i + 1) = a + 1 + i from by omega] at this
    obtain ⟨ih1, ih2, ih3⟩ := ih (a + 1) f hshift (by omega)
    have hw : (List.range (k + 1)).map (fun i => waitOf o (a + i)) =
        waitOf o a :: (List.range k).map (fun i => waitOf o (a + 1 + i)) := by
      rw [range_map_shift (fun i => waitOf o (a + i)) k,
        show a + 0 = a from by omega,
        List.map_congr_left (fun i _ => by
          rw [show a + (i + 1) = a + 1 + i from by omega])]
    have hidx : ∀ P : LLMOutcome → Prop, P (o (a + (k + 1))) → P (o (a + 1 + k)) :=
      fun P hp => by rwa [show a + (k + 1) = a + 1 + k from by omega] at hp
    cases ho : o a with
    | ok c => rw [ho] at h0; simp [retryable] at h0
    | httpOther => rw [ho] at h0; simp [retryable] at h0
    | excOther => rw [ho] at h0; simp [retryable] at h0
    | rateLimited =>
      have hwa : waitOf o a = 2 ^ a + 1 := by simp [waitOf, ho]
      refine ⟨?_, ?_, ?_⟩
      · intro c hc hlt
        simp only [callLLMGo, ho]
        rw [ih1 c (hidx (fun x => x = .ok c) hc) (by omega), hw, hwa]
      · intro hc hlt
        simp only [callLLMGo, ho]
        rw [ih2 (hidx (fun x => x = .httpOther ∨ x = .excOther) hc) (by omega), hw, hwa]
      · intro hc
        simp only [callLLMGo, ho]
        rw [ih3 (by omega), hw, hwa]
    | timedOut =>
      have hwa : waitOf o a = 5 := by simp [waitOf, ho]
      refine ⟨?_, ?_, ?_⟩
      · intro c hc hlt
        simp only [callLLMGo, ho]
        rw [ih1 c (hidx (fun x => x = .ok c) hc) (by omega), hw, hwa]
      · intro hc hlt
        simp only [callLLMGo, ho]
        rw [ih2 (hidx (fun x => x = .httpOther ∨ x = .excOther) hc) (by omega), hw, hwa]
      · intro hc
        simp only [callLLMGo, ho]
        rw [ih3 (by omega), hw, hwa]



/-- C6 (amended): with `max_retries = M`, an HTTP 429 on attempt `k` is
retried after a wait of `2 ^ k + 1` seconds, a request timeout is retried
after a constant 5-second wait, any other HTTP error or exception returns
failure immediately with no retry, and exhausting all `M` attempts returns
failure; the performed waits are exactly `waitOf` over the retried
attempts. -/
theorem c6_retry_policy (o : Nat → LLMOutcome) (M k : Nat)
    (hpre : ∀ i, i < k → retryable (o i) = true) (hkM : k ≤ M) :
    (∀ c, o k = .ok c → k < M →
      callLLM o M = (some c, (List.range k).map (waitOf o))) ∧
    ((o k = .httpOther ∨ o k = .excOther) → k < M →
      callLLM o M = (none, (List.range k).map (waitOf o))) ∧
    (k = M → callLLM o M = (none, (List.range k).map (waitOf o))) ∧
    (∀ i, (o i = .rateLimited → waitOf o i = 2 ^ i + 1) ∧
      (o i = .timedOut → waitOf o i = 5) ∧
      (retryable (o i) = true ↔ (o i = .rateLimited ∨ o i = .timedOut))) := by
  have hbase := callLLMGo_char o k 0 M
    (fun i hi => by simpa using hpre i hi) hkM
  have hmap : (List.range k).map (fun i => waitOf o (0 + i)) =
      (List.range k).map (waitOf o) :=
    List.map_congr_left (fun i _ => by rw [Nat.zero_add])
  rw [show (0 : Nat) + k = k from Nat.zero_add k, hmap] at hbase
  refine ⟨hbase.1, hbase.2.1, hbase.2.2, ?_⟩
  intro i
  refine ⟨fun h => by simp [waitOf, h], fun h => by simp [waitOf, h], ?_⟩
  cases h : o i <;> simp [retryable]

/-- C6 (counterexample): five consecutive timeouts are retried with the
constant waits 5, 5, 5, 5, 5 seconds — not the exponential-backoff waits
2, 3, 5, 9, 17 the claim predicts for timeouts. -/
theorem c6_counterexample :
    callLLM (fun _ => LLMOutcome.timedOut) 5 = (none, [5, 5, 5, 5, 5]) ∧
    [5, 5, 5, 5, 5] ≠
      [2 ^ 0 + 1, 2 ^ 1 + 1, 2 ^ 2 + 1, 2 ^ 3 + 1, 2 ^ 4 + 1] := by
  decide

theorem c6_retry_policy_witness :
    (∀ c, (fun i => if i = 0 then LLMOutcome.rateLimited
        else LLMOutcome.ok (litS "ok")) 1 = .ok c → 1 < 5 →
      callLLM (fun i => if i = 0 then LLMOutcome.rateLimited
        else LLMOutcome.ok (litS "ok")) 5 =
        (some c, (List.range 1).map (waitOf (fun i => if i = 0 then
          LLMOutcome.rateLimited else LLMOutcome.ok (litS "ok"))))) ∧
    (((fun i => if i = 0 then LLMOutcome.rateLimited
        else LLMOutcome.ok (litS "ok")) 1 = .httpOther ∨
      (fun i => if i = 0 then LLMOutcome.rateLimited
        else LLMOutcome.ok (litS "ok")) 1 = .excOther) → 1 < 5 →
      callLLM (fun i => if i = 0 then LLMOutcome.rateLimited
        else LLMOutcome.ok (litS "ok")) 5 =
        (none, (List.range 1).map (waitOf (fun i => if i = 0 then
          LLMOutcome.rateLimited else LLMOutcome.ok (litS "ok"))))) ∧
    (1 = 5 →
      callLLM (fun i => if i = 0 then LLMOutcome.rateLimited
        else LLMOutcome.ok (litS "ok")) 5 =
        (none, (List.range 1).map (waitOf (fun i => if i = 0 then
          LLMOutcome.rateLimited else LLMOutcome.ok (litS "ok"))))) ∧
    (∀ i, ((fun i => if i = 0 then LLMOutcome.rateLimited
        else LLMOutcome.ok (litS "ok")) i = .rateLimited →
        waitOf (fun i => if i = 0 then LLMOutcome.rateLimited
          else LLMOutcome.ok (litS "ok")) i = 2 ^ i + 1) ∧
      ((fun i => if i = 0 then LLMOutcome.rateLimited
        else LLMOutcome.ok (litS "ok")) i = .timedOut →
        waitOf (fun i => if i = 0 then LLMOutcome.rateLimited
          else LLMOutcome.ok (litS "ok")) i = 5) ∧
      (retryable ((fun i => if i = 0 then LLMOutcome.rateLimited
          else LLMOutcome.ok (litS "ok")) i) = true ↔
        ((fun i => if i = 0 then LLMOutcome.rateLimited
          else LLMOutcome.ok (litS "ok")) i = .rateLimited ∨
         (fun i => if i = 0 then LLMOutcome.rateLimited
          else LLMOutcome.ok (litS "ok")) i = .timedOut))) :=
  c6_retry_policy (fun i => if i = 0 then LLMOutcome.rateLimited
      else LLMOutcome.ok (litS "ok")) 5 1
    (fun i hi => by
      have : i = 0 := by omega
      subst this
      decide)
    (by omega)



/-- C7: `estimate_budget` with goal "leads", industry "IT" and no target
lead count returns budget recommendations whose optimal lies strictly
between minimum and maximum, but its `estimated_cac` is the default
average 7000, not the IT row's average 15000: the lookup tests the
upper-case key `"IT"` for substring membership in the lower-cased
industry, which never matches. -/
theorem c7_estimate_budget_it :
    ((estimateBudget (litS "leads") (litS "IT") none
        (litS "средний")).budget_recommendations.minimum <
      (estimateBudget (litS "leads") (litS "IT") none
        (litS "средний")).budget_recommendations.optimal ∧
     (estimateBudget (litS "leads") (litS "IT") none
        (litS "средний")).budget_recommendations.optimal <
      (estimateBudget (litS "leads") (litS "IT") none
        (litS "средний")).budget_recommendations.maximum) ∧
    (estimateBudget (litS "leads") (litS "IT") none
      (litS "средний")).estimated_cac = 7000 ∧
    (industryCac.find? (fun e => e.1 == litS "IT")).map
      (fun e => e.2.2.1) = some 15000 ∧
    (estimateBudget (litS "leads") (litS "IT") none
      (litS "средний")).estimated_cac ≠ 15000 := by
  decide

/-- C10: on a string tool name and any arguments value, `_execute_tool`
raises no exception and returns a string that parses back as a JSON
object — the tool's own mapping on success, an `error` object when the
name is unknown or the tool raises — provided every registered tool
returns a well-formed JSON mapping on success, as the eight calculators
of `TOOL_FUNCTIONS` do; hence the orchestrator's `json.loads` on a tool
result never fails. -/
theorem c10_execute_tool_total (reg : ToolRegistry) (hreg : wfRegistry reg)
    (nm : Str) (args : Json) :
    ∃ res, executeTool reg (.str nm) args = .ok res ∧
      ∃ kvs, jsonParse res = some (.obj kvs) := by
  have hwferr : ∀ (msg : Str), wfJson (.obj [(litS "error", Json.str msg)]) :=
    fun msg => ⟨trivial, trivial⟩
  cases hv : reg nm with
  | none =>
    refine ⟨dumpsCompact (.obj [(litS "error",
      .str (litS "Инструмент '" ++ pyStr (.str nm) ++ litS "' не найден"))]),
      by simp [executeTool, hv], ?_⟩
    exact ⟨_, jsonParse_dumpsCompact _ (hwferr _)⟩
  | some f =>
    cases hfa : f args with
    | ok v =>
      obtain ⟨⟨kvs, rfl⟩, hwf⟩ := hreg nm f hv args v hfa
      refine ⟨dumpsIndent2 (.obj kvs), by simp [executeTool, hv, hfa], ?_⟩
      exact ⟨kvs, jsonParse_dumpsIndent2 _ hwf⟩
    | error e =>
      refine ⟨dumpsCompact (.obj [(litS "error", .str e)]),
        by simp [executeTool, hv, hfa], ?_⟩
      exact ⟨_, jsonParse_dumpsCompact _ (hwferr _)⟩

theorem c10_execute_tool_total_witness :
    ∃ res, executeTool (fun nm => if nm == litS "echo" then
        some (fun _ => Except.ok (Json.obj [])) else none)
        (.str (litS "echo")) (.obj []) = .ok res ∧
      ∃ kvs, jsonParse res = some (.obj kvs) :=
  c10_execute_tool_total
    (fun nm => if nm == litS "echo" then
      some (fun _ => Except.ok (Json.obj [])) else none)
    (fun nm f h args v hv => by
      cases hb : (nm == litS "echo") with
      | true =>
        simp only [hb, if_true] at h
        injection h with h
        subst h
        injection hv with hv
        subst hv
        exact ⟨⟨[], rfl⟩, trivial⟩
      | false =>
        simp only [hb, Bool.false_eq_true, if_false] at h
        cases h)
    (litS "echo") (.obj [])


theorem anyPos_false (f : Str → Bool) :
    ∀ s, anyPos f s = false → ∀ i, f (s.drop i) = false := by
  intro s
  induction s with
  | nil =>
    intro h i
    simp only [List.drop_nil]
    simpa [anyPos] using h
  | cons c rest ih =>
    intro h i
    rw [anyPos, Bool.or_eq_false_iff] at h
    cases i with
    | zero => exact h.1
    | succ j => exact ih h.2 j

theorem isPrefL_long : ∀ (u q s : Str), isPrefL q (u ++ s) = true →
    q.length ≤ u.length → isPrefL q u = true := by
  intro u
  induction u with
  | nil =>
    intro q s h hl
    cases q with
    | nil => rfl
    | cons a b => simp at hl
  | cons c u' ih =>
    intro q s h hl
    cases q with
    | nil => rfl
    | cons a b =>
      rw [List.cons_append, isPrefL, Bool.and_eq_true] at h
      rw [isPrefL, Bool.and_eq_true]
      exact ⟨h.1, ih b s h.2 (by simpa using hl)⟩

theorem isPrefL_short : ∀ (u q s : Str), isPrefL q (u ++ s) = true →
    u.length < q.length → isPrefL (q.drop u.length) s = true := by
  intro u
  induction u with
  | nil =>
    intro q s h hl
    simpa using h
  | cons c u' ih =>
    intro q s h hl
    cases q with
    | nil => simp at hl
    | cons a b =>
      rw [List.cons_append, isPrefL, Bool.and_eq_true] at h
      exact ih b s h.2 (by simpa using hl)

theorem firstOcc_boundary (q p : Str)
    (hno : containsSub q p = false)
    (hbord : ∀ t, t < q.length → 0 < t → isPrefL (q.drop t) q = false) :
    firstOcc q (p ++ q) = some p.length := by
  induction p with
  | nil =>
    cases q with
    | nil => rfl
    | cons a b =>
      rw [List.nil_append, firstOcc, if_pos (by
        have := isPrefL_append_self (a :: b) []
        simpa using this)]
      rfl
  | cons c p' ih =>
    have hfalse : isPrefL q ((c :: p') ++ q) = false := by
      rcases Bool.eq_false_or_eq_true (isPrefL q ((c :: p') ++ q)) with ht | hf
      case inr => exact hf
      · exfalso
        by_cases hl : q.length ≤ (c :: p').length
        · have := isPrefL_long (c :: p') q q ht hl
          have h0 : isPrefL q ((c :: p').drop 0) = false :=
            anyPos_false (isPrefL q) (c :: p') hno 0
          simp only [List.drop_zero] at h0
          rw [this] at h0
          cases h0
        · have hlt : (c :: p').length < q.length := by omega
          have := isPrefL_short (c :: p') q q ht hlt
          have hb := hbord (c :: p').length hlt (by simp)
          rw [this] at hb
          cases hb
    rw [List.cons_append, firstOcc, if_neg (by simp [List.cons_append] at hfalse ⊢; simp [hfalse])]
    have hno' : containsSub q p' = false := by
      rw [containsSub]
      rcases Bool.eq_false_or_eq_true (anyPos (isPrefL q) p') with ht | hf
      case inr => exact hf
      · exfalso
        rw [containsSub, anyPos, Bool.or_eq_false_iff] at hno
        rw [hno.2] at ht
        cases ht
    rw [ih hno']
    rfl





theorem firstOcc_self_prefix (q s : Str) (h : isPrefL q s = true) :
    firstOcc q s = some 0 := by
  cases s with
  | nil => simp [firstOcc, h]
  | cons c rest => simp [firstOcc, h]

theorem closedBlocksGo_nil : ∀ fuel, closedBlocksGo fuel [] = [] := by
  intro fuel
  cases fuel with
  | zero => rfl
  | succ f => rfl

theorem splitFirstSub_self (q rest : Str) :
    splitFirstSub q (q ++ rest) = some ([], rest) := by
  rw [splitFirstSub, firstOcc_self_prefix q (q ++ rest) (isPrefL_append_self q rest)]
  simp only [Option.map_some']
  rw [List.take_zero, Nat.zero_add, List.drop_left]

theorem splitFirstSub_boundary (q p : Str)
    (hno : containsSub q p = false)
    (hbord : ∀ t, t < q.length → 0 < t → isPrefL (q.drop t) q = false) :
    splitFirstSub q (p ++ q) = some (p, []) := by
  rw [splitFirstSub, firstOcc_boundary q p hno hbord]
  simp only [Option.map_some']
  rw [List.take_left, List.drop_eq_nil_of_le (by simp)]

theorem closedBlocks_single (p : Str)
    (hno : containsSub toolCloseTag p = false) :
    closedBlocks (toolOpenTag ++ (p ++ toolCloseTag)) = [p] := by
  rw [closedBlocks, closedBlocksGo]
  simp only [splitFirstSub_self,
    splitFirstSub_boundary toolCloseTag p hno (by decide), closedBlocksGo_nil]

theorem candidateBlocks_single (p : Str)
    (hno : containsSub toolCloseTag p = false) :
    candidateBlocks (toolOpenTag ++ (p ++ toolCloseTag)) = [p] := by
  rw [candidateBlocks, closedBlocks_single p hno]
  rfl

theorem lookupLast_any (kvs : List (Str × Json)) (key : Str) (v : Json)
    (h : lookupLast kvs key = some v) :
    kvs.any (fun kv => kv.1 == key) = true := by
  rw [lookupLast] at h
  cases hf : kvs.reverse.find? (fun kv => kv.1 == key) with
  | none => rw [hf] at h; cases h
  | some kv0 =>
    have hp := List.find?_some hf
    have hm := List.mem_of_find?_eq_some hf
    rw [List.mem_reverse] at hm
    rw [List.any_eq_true]
    exact ⟨kv0, hm, hp⟩




/-- C4: a text that is exactly one well-formed tool-call block — the
opening delimiter, a payload (free of the closing delimiter), the closing
delimiter — parses to exactly one tool call when the payload is a JSON
object carrying both a `name` and an `arguments` key, with the call's name
and arguments equal to those fields' values; and parses to zero tool calls
when the payload is not valid JSON. -/
theorem c4_tool_block_roundtrip (p : Str)
    (hno : containsSub toolCloseTag p = false) :
    (∀ kvs nv av, jsonParse (pyStrip p) = some (.obj kvs) →
      lookupLast kvs keyName = some nv → lookupLast kvs keyArgs = some av →
      parseToolCalls (toolOpenTag ++ (p ++ toolCloseTag)) = .ok [.obj kvs] ∧
      pyGetItem (.obj kvs) keyName = .ok nv ∧
      pyGetItem (.obj kvs) keyArgs = .ok av) ∧
    (jsonParse (pyStrip p) = none →
      parseToolCalls (toolOpenTag ++ (p ++ toolCloseTag)) = .ok []) := by
  constructor
  · intro kvs nv av hjson hnm harg
    refine ⟨?_, by simp [pyGetItem, hnm], by simp [pyGetItem, harg]⟩
    rw [parseToolCalls, candidateBlocks_single p hno]
    simp only [parseToolCallsGo, hjson, pyContains,
      lookupLast_any kvs keyName nv hnm, lookupLast_any kvs keyArgs av harg,
      if_true]
    rfl
  · intro hjson
    rw [parseToolCalls, candidateBlocks_single p hno]
    simp only [parseToolCallsGo, hjson]

theorem c4_tool_block_roundtrip_witness :
    (parseToolCalls (toolOpenTag ++
        (litS "\x7b\"name\": \"a\", \"arguments\": \x7b\x7d\x7d" ++ toolCloseTag)) =
      .ok [.obj [(litS "name", Json.str (litS "a")),
        (litS "arguments", Json.obj [])]] ∧
      pyGetItem (.obj [(litS "name", Json.str (litS "a")),
        (litS "arguments", Json.obj [])]) keyName = .ok (Json.str (litS "a")) ∧
      pyGetItem (.obj [(litS "name", Json.str (litS "a")),
        (litS "arguments", Json.obj [])]) keyArgs = .ok (Json.obj [])) ∧
    (parseToolCalls (toolOpenTag ++
        (litS "not json" ++ toolCloseTag)) = .ok []) :=
  ⟨(c4_tool_block_roundtrip (litS "\x7b\"name\": \"a\", \"arguments\": \x7b\x7d\x7d")
      (by decide)).1
    [(litS "name", Json.str (litS "a")), (litS "arguments", Json.obj [])]
    (Json.str (litS "a")) (Json.obj []) rfl rfl rfl,
   (c4_tool_block_roundtrip (litS "not json") (by decide)).2 rfl⟩

/-- C5 (amended): `_parse_tool_calls` keeps exactly the candidate blocks
that are valid JSON and whose value passes both membership tests for the
`name` and the `arguments` key (both are required, not just one); a block
that is not valid JSON is silently discarded, but on a valid-JSON block
whose value is not a container the membership test raises an uncaught
`TypeError`, so a malformed block can crash the method rather than degrade
to zero tool calls. -/
theorem c5_discard_criterion (s : Str) :
    (∀ l, parseToolCalls s = .ok l →
      l = (candidateBlocks s).filterMap
        (fun b => (jsonParse (pyStrip b)).bind keepToolCall)) ∧
    (parseToolCalls s = .error () →
      ∃ b ∈ candidateBlocks s, ∃ v, jsonParse (pyStrip b) = some v ∧
        (pyContains v keyName = .error () ∨
         (pyContains v keyName = .ok true ∧ pyContains v keyArgs = .error ()))) ∧
    (∀ v, keepToolCall v = some v ↔
      (pyContains v keyName = .ok true ∧ pyContains v keyArgs = .ok true)) := by
  have hgo : ∀ bs : List Str,
      (∀ l, parseToolCallsGo bs = .ok l →
        l = bs.filterMap (fun b => (jsonParse (pyStrip b)).bind keepToolCall)) ∧
      (parseToolCallsGo bs = .error () →
        ∃ b ∈ bs, ∃ v, jsonParse (pyStrip b) = some v ∧
          (pyContains v keyName = .error () ∨
           (pyContains v keyName = .ok true ∧ pyContains v keyArgs = .error ()))) := by
    intro bs
    induction bs with
    | nil =>
      refine ⟨fun l hl => ?_, fun hl => by cases hl⟩
      injection hl with hl
      simp [hl.symm]
    | cons b rest ih =>
      cases hjson : jsonParse (pyStrip b) with
      | none =>
        refine ⟨fun l hl => ?_, fun hl => ?_⟩
        · simp only [parseToolCallsGo, hjson] at hl
          rw [List.filterMap_cons_none (by rw [hjson]; rfl)]
          exact ih.1 l hl
        · simp only [parseToolCallsGo, hjson] at hl
          obtain ⟨b2, hb2, hrest⟩ := ih.2 hl
          exact ⟨b2, List.mem_cons_of_mem b hb2, hrest⟩
      | some v =>
        cases hnm : pyContains v keyName with
        | error e =>
          cases e
          refine ⟨fun l hl => ?_, fun _ => ?_⟩
          · simp only [parseToolCallsGo, hjson, hnm] at hl
            cases hl
          · exact ⟨b, List.mem_cons_self b rest, v, hjson, Or.inl hnm⟩
        | ok bn =>
          cases bn with
          | false =>
            refine ⟨fun l hl => ?_, fun hl => ?_⟩
            · simp only [parseToolCallsGo, hjson, hnm, Bool.false_eq_true,
                if_false] at hl
              rw [List.filterMap_cons_none (by
                rw [hjson]
                simp only [Option.some_bind, keepToolCall, hnm])]
              exact ih.1 l hl
            · simp only [parseToolCallsGo, hjson, hnm] at hl
              simp only [Bool.false_eq_true, if_false] at hl
              obtain ⟨b2, hb2, hrest⟩ := ih.2 hl
              exact ⟨b2, List.mem_cons_of_mem b hb2, hrest⟩
          | true =>
            cases harg : pyContains v keyArgs with
            | error e =>
              cases e
              refine ⟨fun l hl => ?_, fun _ => ?_⟩
              · simp only [parseToolCallsGo, hjson, hnm, harg] at hl
                simp at hl
              · exact ⟨b, List.mem_cons_self b rest, v, hjson,
                  Or.inr ⟨hnm, harg⟩⟩
            | ok ba =>
              cases ba with
              | false =>
                refine ⟨fun l hl => ?_, fun hl => ?_⟩
                · simp only [parseToolCallsGo, hjson, hnm, harg, if_true,
                    Bool.false_eq_true, if_false] at hl
                  rw [List.filterMap_cons_none (by
                    rw [hjson]
                    simp only [Option.some_bind, keepToolCall, hnm, harg])]
                  exact ih.1 l hl
                · simp only [parseToolCallsGo, hjson, hnm, harg] at hl
                  simp only [if_true, Bool.false_eq_true, if_false] at hl
                  obtain ⟨b2, hb2, hrest⟩ := ih.2 hl
                  exact ⟨b2, List.mem_cons_of_mem b hb2, hrest⟩
              | true =>
                refine ⟨fun l hl => ?_, fun hl => ?_⟩
                · simp only [parseToolCallsGo, hjson, hnm, harg, if_true] at hl
                  cases hrec : parseToolCallsGo rest with
                  | error e => rw [hrec] at hl; cases hl
                  | ok lrest =>
                    rw [hrec] at hl
                    simp only [Except.map, Except.ok.injEq] at hl
                    rw [List.filterMap_cons_some (by
                      rw [hjson]
                      simp only [Option.some_bind, keepToolCall, hnm, harg]
                      rfl)]
                    rw [← hl, ih.1 lrest hrec]
                · simp only [parseToolCallsGo, hjson, hnm, harg] at hl
                  simp only [if_true] at hl
                  cases hrec : parseToolCallsGo rest with
                  | ok lrest => rw [hrec] at hl; cases hl
                  | error e =>
                    cases e
                    obtain ⟨b2, hb2, hrest⟩ := ih.2 hrec
                    exact ⟨b2, List.mem_cons_of_mem b hb2, hrest⟩
  refine ⟨(hgo (candidateBlocks s)).1, (hgo (candidateBlocks s)).2, ?_⟩
  intro v
  constructor
  · intro h
    rw [keepToolCall] at h
    cases hnm : pyContains v keyName with
    | error e => rw [hnm] at h; cases h
    | ok bn =>
      cases bn with
      | false => rw [hnm] at h; cases h
      | true =>
        cases harg : pyContains v keyArgs with
        | error e => rw [hnm, harg] at h; cases h
        | ok ba =>
          cases ba with
          | false => rw [hnm, harg] at h; cases h
          | true => exact ⟨rfl, rfl⟩
  · intro ⟨hnm, harg⟩
    rw [keepToolCall, hnm, harg]

/-- C5 (counterexample): a block whose valid-JSON object carries a `name`
key but no `arguments` key is discarded (zero tool calls), against the
claim that one of the two keys suffices; and a block whose valid JSON is
the bare numeral `42` raises the uncaught `TypeError` of the membership
test, against the claim that a malformed block never raises. -/
theorem c5_counterexample :
    parseToolCalls (litS "<tool_call>\x7b\"name\": \"x\"\x7d</tool_call>") =
      .ok [] ∧
    jsonParse (pyStrip (litS "\x7b\"name\": \"x\"\x7d")) =
      some (Json.obj [(litS "name", Json.str (litS "x"))]) ∧
    pyContains (Json.obj [(litS "name", Json.str (litS "x"))]) keyName =
      .ok true ∧
    parseToolCalls (litS "<tool_call>42</tool_call>") = .error () :=
  ⟨rfl, rfl, rfl, rfl⟩


theorem isPrefL_length : ∀ (q s : Str), isPrefL q s = true → q.length ≤ s.length := by
  intro q
  induction q with
  | nil => intro s h; simp
  | cons a q' ih =>
    intro s h
    cases s with
    | nil => cases h
    | cons b s' =>
      rw [isPrefL, Bool.and_eq_true] at h
      have := ih s' h.2
      simp only [List.length_cons]
      omega

theorem isPrefL_get? : ∀ (q s : Str), isPrefL q s = true →
    ∀ k, k < q.length → s.get? k = q.get? k := by
  intro q
  induction q with
  | nil => intro s h k hk; simp at hk
  | cons a q' ih =>
    intro s h k hk
    cases s with
    | nil => cases h
    | cons b s' =>
      rw [isPrefL, Bool.and_eq_true, beq_iff_eq] at h
      cases k with
      | zero => simp [List.get?, h.1]
      | succ k' =>
        simp only [List.get?]
        exact ih s' h.2 k' (by simpa using hk)

theorem isPrefL_decomp : ∀ (q s : Str), isPrefL q s = true →
    s = q ++ s.drop q.length := by
  intro q
  induction q with
  | nil => intro s h; simp
  | cons a q' ih =>
    intro s h
    cases s with
    | nil => cases h
    | cons b s' =>
      rw [isPrefL, Bool.and_eq_true, beq_iff_eq] at h
      simp only [List.length_cons, List.drop_succ_cons, List.cons_append]
      rw [h.1]
      exact congrArg (b :: ·) (ih s' h.2)

theorem containsSub_iff_exists (q s : Str) :
    containsSub q s = true ↔ ∃ m, isPrefL q (s.drop m) = true := by
  rw [containsSub]
  induction s with
  | nil =>
    simp only [anyPos]
    exact ⟨fun h => ⟨0, by simpa using h⟩, fun ⟨m, hm⟩ => by simpa using hm⟩
  | cons c rest ih =>
    rw [anyPos, Bool.or_eq_true]
    constructor
    · intro h
      rcases h with h | h
      · exact ⟨0, by simpa using h⟩
      · obtain ⟨m, hm⟩ := ih.mp h
        exact ⟨m + 1, by simpa using hm⟩
    · intro ⟨m, hm⟩
      cases m with
      | zero => exact Or.inl (by simpa using hm)
      | succ m' => exact Or.inr (ih.mpr ⟨m', by simpa using hm⟩)

theorem containsSub_cons_of (q : Str) (c : Char) (t : Str)
    (h : containsSub q t = true) : containsSub q (c :: t) = true := by
  rw [containsSub, anyPos, Bool.or_eq_true]
  exact Or.inr h

theorem containsSub_of_isPrefL (q t : Str) (hq : q ≠ [])
    (h : isPrefL q t = true) : containsSub q t = true := by
  cases t with
  | nil => cases q with
    | nil => exact absurd rfl hq
    | cons a b => cases h
  | cons c rest =>
    rw [containsSub, anyPos, Bool.or_eq_true]
    exact Or.inl h

theorem noOverlap_spec₁ (p q : Str) (h : noOverlap p q = true) (j : Nat)
    (hj : j < p.length)
    (hagree : ∀ k, k < min (p.length - j) q.length → p.get? (j + k) = q.get? k) :
    False := by
  rw [noOverlap, Bool.and_eq_true] at h
  have h1 := h.1
  rw [List.all_eq_true] at h1
  have h2 := h1 j (List.mem_range.mpr hj)
  rw [Bool.not_eq_true'] at h2
  have h3 : ((List.range (min (p.length - j) q.length)).all
      (fun k => p.get? (j + k) == q.get? k)) = true := by
    rw [List.all_eq_true]
    intro k hk
    rw [beq_iff_eq]
    exact hagree k (List.mem_range.mp hk)
  rw [h2] at h3
  cases h3

theorem noOverlap_spec₂ (p q : Str) (h : noOverlap p q = true) (j : Nat)
    (hj : j < q.length) (hj0 : j ≠ 0)
    (hagree : ∀ k, k < min (q.length - j) p.length → q.get? (j + k) = p.get? k) :
    False := by
  rw [noOverlap, Bool.and_eq_true] at h
  have h1 := h.2
  rw [List.all_eq_true] at h1
  have h2 := h1 j (List.mem_range.mpr hj)
  rw [Bool.or_eq_true] at h2
  rcases h2 with h2 | h2
  · rw [beq_iff_eq] at h2
    exact hj0 h2
  · rw [Bool.not_eq_true'] at h2
    have h3 : ((List.range (min (q.length - j) p.length)).all
        (fun k => q.get? (j + k) == p.get? k)) = true := by
      rw [List.all_eq_true]
      intro k hk
      rw [beq_iff_eq]
      exact hagree k (List.mem_range.mp hk)
    rw [h2] at h3
    cases h3

theorem occ_disjoint_after (p q s : Str) (m : Nat) (hno : noOverlap p q = true)
    (hp : isPrefL p s = true) (hq : isPrefL q (s.drop m) = true)
    (hm : m < p.length) : False := by
  apply noOverlap_spec₁ p q hno m hm
  intro k hk
  have h1 : s.get? (m + k) = p.get? (m + k) :=
    isPrefL_get? p s hp (m + k) (by omega)
  have h2 : (s.drop m).get? k = q.get? k :=
    isPrefL_get? q (s.drop m) hq k (by omega)
  rw [List.get?_drop] at h2
  rw [← h1, ← h2]

theorem no_occ_inside (p q s : Str) (a : Nat) (hno : noOverlap p q = true)
    (hq : isPrefL q s = true) (ha : 0 < a) (ha2 : a < q.length)
    (hp : isPrefL p (s.drop a) = true) : False := by
  apply noOverlap_spec₂ p q hno a ha2 (by omega)
  intro k hk
  have h1 : s.get? (a + k) = q.get? (a + k) :=
    isPrefL_get? q s hq (a + k) (by omega)
  have h2 : (s.drop a).get? k = p.get? k :=
    isPrefL_get? p (s.drop a) hp k (by omega)
  rw [List.get?_drop] at h2
  rw [← h1, ← h2]

theorem removeAllGo_keep (p : Str) : ∀ (u : Str) (fuel : Nat) (v : Str),
    u.length ≤ fuel →
    (∀ i, i < u.length → isPrefL p ((u ++ v).drop i) = false) →
    removeAllGo p fuel (u ++ v) = u ++ removeAllGo p (fuel - u.length) v := by
  intro u
  induction u with
  | nil => intro fuel v _ _; simp
  | cons a u' ih =>
    intro fuel v hlen hfree
    cases fuel with
    | zero => simp at hlen
    | succ f =>
      have h0 : isPrefL p ((a :: (u' ++ v)).drop 0) = false := by
        have := hfree 0 (by simp)
        simpa using this
      rw [List.drop_zero] at h0
      have hcond : (decide (p ≠ []) && isPrefL p (a :: (u' ++ v))) = false := by
        rw [h0, Bool.and_false]
      rw [List.cons_append, removeAllGo]
      rw [hcond]
      simp only [Bool.false_eq_true, if_false]
      have hfree' : ∀ i, i < u'.length → isPrefL p ((u' ++ v).drop i) = false := by
        intro i hi
        have := hfree (i + 1) (by simp; omega)
        rw [List.cons_append, List.drop_succ_cons] at this
        exact this
      rw [ih f v (by simpa using hlen) hfree']
      simp only [List.length_cons, List.cons_append, Nat.succ_sub_succ]

theorem removeAllGo_preserve (p q : Str) (hno : noOverlap p q = true)
    (hp : p ≠ []) (hq : q ≠ []) :
    ∀ fuel s, s.length ≤ fuel → containsSub q s = true →
      containsSub q (removeAllGo p fuel s) = true := by
  intro fuel
  induction fuel with
  | zero =>
    intro s hlen hcont
    have hs : s = [] := by
      cases s with
      | nil => rfl
      | cons a b => simp at hlen
    subst hs
    cases q with
    | nil => exact absurd rfl hq
    | cons q0 q' => cases hcont
  | succ fuel ih =>
    intro s hlen hcont
    cases s with
    | nil => simpa using hcont
    | cons c rest =>
      rcases Bool.eq_false_or_eq_true (isPrefL p (c :: rest)) with hpre | hpre
      · -- head matches p: the match is consumed; q lies beyond it
        have hcond : (decide (p ≠ []) && isPrefL p (c :: rest)) = true := by
          rw [hpre, Bool.and_true, decide_eq_true_eq]
          exact hp
        rw [removeAllGo, hcond]
        simp only [if_true]
        have hdrop : List.drop (p.length - 1) rest = (c :: rest).drop p.length := by
          cases p with
          | nil => exact absurd rfl hp
          | cons p0 p' => simp
        rw [hdrop]
        obtain ⟨m, hm⟩ := (containsSub_iff_exists q (c :: rest)).mp hcont
        have hmge : p.length ≤ m := by
          by_contra hlt
          exact occ_disjoint_after p q (c :: rest) m hno hpre hm (by omega)
        apply ih
        · simp only [List.length_drop, List.length_cons]
          simp only [List.length_cons] at hlen
          have : 1 ≤ p.length := by
            cases p with
            | nil => exact absurd rfl hp
            | cons a b => simp
          omega
        · apply (containsSub_iff_exists q _).mpr
          refine ⟨m - p.length, ?_⟩
          rw [List.drop_drop]
          have : p.length + (m - p.length) = m := by omega
          rw [this]
          exact hm
      · -- head does not match p: one character is kept
        have hcond : (decide (p ≠ []) && isPrefL p (c :: rest)) = false := by
          rw [hpre, Bool.and_false]
        rw [removeAllGo, hcond]
        simp only [Bool.false_eq_true, if_false]
        rw [containsSub, anyPos, Bool.or_eq_true] at hcont
        rcases hcont with hq0 | hrest
        · -- q matches at the head: its window is free of p, so it is kept
          cases q with
          | nil => exact absurd rfl hq
          | cons q0 q' =>
            have hq0' := hq0
            rw [isPrefL, Bool.and_eq_true, beq_iff_eq] at hq0'
            have hre : rest = q' ++ rest.drop q'.length :=
              isPrefL_decomp q' rest hq0'.2
            have hulen : q'.length ≤ fuel := by
              have h1 := isPrefL_length q' rest hq0'.2
              simp only [List.length_cons] at hlen
              omega
            have hfree : ∀ i, i < q'.length →
                isPrefL p ((q' ++ rest.drop q'.length).drop i) = false := by
              intro i hi
              rw [← hre]
              rcases Bool.eq_false_or_eq_true (isPrefL p (rest.drop i)) with ht | hf
              · exfalso
                apply no_occ_inside p (q0 :: q') (c :: rest) (i + 1) hno hq0
                  (by omega) (by simp; omega)
                rw [List.drop_succ_cons]
                exact ht
              · exact hf
            have hkeep := removeAllGo_keep p q' fuel (rest.drop q'.length) hulen hfree
            rw [hre, hkeep]
            apply containsSub_of_isPrefL (q0 :: q') _ hq
            rw [← List.cons_append, ← hq0'.1]
            exact isPrefL_append_self _ _
        · -- q occurs further right: recurse
          apply containsSub_cons_of
          apply ih rest (by simpa using hlen)
          exact hrest

theorem isPrefCI_lower : ∀ (p s : Str), isPrefCI p s = isPrefL (lowerStr p) (lowerStr s) := by
  intro p
  induction p with
  | nil => intro s; rfl
  | cons a p' ih =>
    intro s
    cases s with
    | nil => rfl
    | cons b s' =>
      rw [isPrefCI, ih s']
      rfl

theorem lowerStr_removeAllCIGo (p : Str) : ∀ (fuel : Nat) (s : Str),
    lowerStr (removeAllCIGo p fuel s) = removeAllGo (lowerStr p) fuel (lowerStr s) := by
  intro fuel
  induction fuel with
  | zero =>
    intro s
    cases s with
    | nil => rfl
    | cons c rest => rfl
  | succ fuel ih =>
    intro s
    cases s with
    | nil => rfl
    | cons c rest
    =>
    have hmap : lowerStr (c :: rest) = lowerChar c :: lowerStr rest := rfl
    rw [hmap, removeAllCIGo, removeAllGo]
    have hne : (decide (p ≠ [])) = (decide (lowerStr p ≠ [])) := by
      cases p with
      | nil => rfl
      | cons a b => rfl
    have hpre : isPrefCI p (c :: rest) = isPrefL (lowerStr p) (lowerChar c :: lowerStr rest) := by
      rw [isPrefCI_lower]
      rfl
    rw [← hne, ← hpre]
    rcases Bool.eq_false_or_eq_true (decide (p ≠ []) && isPrefCI p (c :: rest)) with hc | hc
    · rw [hc]
      simp only [if_true]
      rw [ih]
      have hlen : (lowerStr p).length = p.length := by
        simp [lowerStr]
      rw [hlen]
      have hdrop : lowerStr (List.drop (p.length - 1) rest) =
          List.drop (p.length - 1) (lowerStr rest) := by
        simp [lowerStr, List.map_drop]
      rw [hdrop]
    · rw [hc]
      simp only [Bool.false_eq_true, if_false]
      rw [← ih]
      rfl

theorem containsCI_removeAllCI (head tag s : Str)
    (hno : noOverlap (lowerStr head) (lowerStr tag) = true)
    (hh : head ≠ []) (ht : tag ≠ [])
    (hocc : containsCI tag s = true) :
    containsCI tag (removeAllCI head s) = true := by
  rw [containsCI, removeAllCI, lowerStr_removeAllCIGo]
  apply removeAllGo_preserve (lowerStr head) (lowerStr tag) hno
  · cases head with
    | nil => exact absurd rfl hh
    | cons a b => simp [lowerStr]
  · cases tag with
    | nil => exact absurd rfl ht
    | cons a b => simp [lowerStr]
  · simp [lowerStr]
  · exact hocc

theorem tagFold_warn_mono : ∀ (tags : List Str) (acc : Str × List Str) (w : Str),
    w ∈ acc.2 → w ∈ (tags.foldl tagStep acc).2 := by
  intro tags
  induction tags with
  | nil => intro acc w h; exact h
  | cons head tl ih =>
    intro acc w h
    rw [List.foldl_cons]
    apply ih
    rw [tagStep]
    rcases Bool.eq_false_or_eq_true (containsCI head acc.1) with hc | hc
    · rw [hc]
      simp only [if_true]
      simp only [List.mem_append]
      exact Or.inl h
    · rw [hc]
      simp only [Bool.false_eq_true, if_false]
      exact h

theorem tagFold_warn : ∀ (tags : List Str) (acc : Str × List Str) (tag : Str),
    tag ∈ tags →
    (∀ t ∈ tags, t ≠ tag → noOverlap (lowerStr t) (lowerStr tag) = true ∧ t ≠ []) →
    tag ≠ [] →
    containsCI tag acc.1 = true →
    (litS "Удалён тег: " ++ tag) ∈ (tags.foldl tagStep acc).2 := by
  intro tags
  induction tags with
  | nil => intro acc tag h; cases h
  | cons head tl ih =>
    intro acc tag hmem hside htag hocc
    rw [List.foldl_cons]
    by_cases hh : head = tag
    · subst hh
      apply tagFold_warn_mono
      rw [tagStep, hocc]
      simp only [if_true, List.mem_append]
      exact Or.inr (List.mem_singleton.mpr rfl)
    · have hmem' : tag ∈ tl := by
        rcases List.mem_cons.mp hmem with h | h
        · exact absurd h.symm hh
        · exact h
      apply ih _ tag hmem'
      · intro t htl
        exact hside t (List.mem_cons_of_mem head htl)
      · exact htag
      · rw [tagStep]
        rcases Bool.eq_false_or_eq_true (containsCI head acc.1) with hc | hc
        · rw [hc]
          simp only [if_true]
          obtain ⟨hno, hhd⟩ := hside head (List.mem_cons_self head tl) hh
          exact containsCI_removeAllCI head tag acc.1 hno hhd htag hocc
        · rw [hc]
          simp only [Bool.false_eq_true, if_false]
          exact hocc

/-- C8: every dangerous tag that occurs case-insensitively in the
(truncated) input gets its removal warning recorded in the warning list of
`sanitize_input`. -/
theorem c8_tag_removal (input : Str) (maxLength : Nat) (tag : Str)
    (htag : tag ∈ dangerousTags)
    (hocc : containsCI tag
      (if input.length > maxLength then input.take maxLength else input) = true) :
    (litS "Удалён тег: " ++ tag) ∈ (sanitizeInput input maxLength).2 := by
  have htag' : tag = litS "<system>" ∨ tag = litS "</system>" ∨ tag = litS "<admin>" ∨
      tag = litS "</admin>" ∨ tag = litS "[INST]" ∨ tag = litS "[/INST]" := by
    simpa [dangerousTags] using htag
  have hside : ∀ t ∈ dangerousTags, t ≠ tag →
      noOverlap (lowerStr t) (lowerStr tag) = true ∧ t ≠ [] := by
    intro t ht hne
    have ht' : t = litS "<system>" ∨ t = litS "</system>" ∨ t = litS "<admin>" ∨
        t = litS "</admin>" ∨ t = litS "[INST]" ∨ t = litS "[/INST]" := by
      simpa [dangerousTags] using ht
    rcases htag' with rfl | rfl | rfl | rfl | rfl | rfl <;>
      rcases ht' with rfl | rfl | rfl | rfl | rfl | rfl <;>
      first
        | exact absurd rfl hne
        | exact ⟨by decide, by decide⟩
  have htne : tag ≠ [] := by
    rcases htag' with rfl | rfl | rfl | rfl | rfl | rfl <;> decide
  have hwarn := tagFold_warn dangerousTags
    ((if input.length > maxLength then input.take maxLength else input), []) tag
    htag hside htne hocc
  obtain ⟨⟨t2, w3⟩, hfold⟩ : ∃ r, dangerousTags.foldl tagStep
      ((if input.length > maxLength then input.take maxLength else input), []) = r :=
    ⟨_, rfl⟩
  rw [hfold] at hwarn
  have hsnd : (sanitizeInput input maxLength).2 =
      (if input.length > maxLength then
        [litS "Текст обрезан до " ++ natToStr maxLength ++ litS " символов"] else []) ++
      (if injMatched (if input.length > maxLength then input.take maxLength else input)
        then [injWarnApprox] else []) ++ w3 := by
    simp only [sanitizeInput, hfold]
  rw [hsnd]
  exact List.mem_append.mpr (Or.inr hwarn)

theorem c8_tag_removal_witness :
    (litS "Удалён тег: " ++ litS "<admin>") ∈
      (sanitizeInput (litS "у <ADMIN> тест") 5000).2 :=
  c8_tag_removal (litS "у <ADMIN> тест") 5000 (litS "<admin>") (by decide) (by decide)

/-- C8 counterexample: the input `<sys<system>tem>` contains the tag
`<system>`; one-pass removal splices the surrounding text into a fresh
occurrence, so the sanitized output still contains the tag substring even
though the removal warning was recorded. -/
theorem c8_counterexample :
    containsCI (litS "<system>") (litS "<sys<system>tem>") = true ∧
    (litS "<sys<system>tem>").length ≤ 5000 ∧
    (litS "Удалён тег: " ++ litS "<system>") ∈
      (sanitizeInput (litS "<sys<system>tem>") 5000).2 ∧
    containsSub (litS "<system>") (sanitizeInput (litS "<sys<system>tem>") 5000).1 = true := by
  refine ⟨by decide, by decide, ?_, ?_⟩
  · decide
  · decide

end MarketingAgent
